import Mathlib

/-!
Verification of the topology core of the katana partitioned property-graph
storage system, against `libgraph/src/GraphTopology.cpp` and
`libtsuba/include/tsuba/Cache.h`.

Machine arrays (`katana::NUMAArray`, `std::vector`) are embedded as `List Nat`;
reads are `List.getD` (out-of-range reads yield the default `0` and are tracked
separately where a claim is about memory safety).  Parallel `do_all` loops whose
iterations commute (atomic counters, per-node disjoint writes) are embedded as
sequential folds over the iteration space in index order, which is one of the
admissible interleavings and the canonical deterministic one.
-/

namespace Katana

/-- Base CSR topology: `adj_indices[i]` is one-past-last edge of node `i`,
`dests[e]` the destination of edge `e`, plus the two optional property
back-index arrays (empty list = absent, identity implied).  Mirrors the data
members of `katana::GraphTopology`. -/
structure GraphTopology where
  adj_indices : List Nat
  dests : List Nat
  edge_prop_indices : List Nat
  node_prop_indices : List Nat
deriving DecidableEq

def GraphTopology.numNodes (t : GraphTopology) : Nat :=
  t.adj_indices.length

def GraphTopology.numEdges (t : GraphTopology) : Nat :=
  t.dests.length

/-- Modelled from the spec: the header `GraphTopology.h` is not under `src/`;
§4.1 gives `out_edges(n)` as the iterator range `[prev(n), adj_indices[n])`
with `prev(n) = (n == 0 ? 0 : adj_indices[n-1])`.  This is the start. -/
def GraphTopology.edgeBeg (t : GraphTopology) (n : Nat) : Nat :=
  if n = 0 then 0 else t.adj_indices.getD (n - 1) 0

/-- Modelled from the spec: one-past-last edge of node `n` (`adj_indices[n]`). -/
def GraphTopology.edgeEnd (t : GraphTopology) (n : Nat) : Nat :=
  t.adj_indices.getD n 0

/-- Modelled from the spec: `out_degree(n) = adj_indices[n] - prev(n)` (§4.1). -/
def GraphTopology.outDegree (t : GraphTopology) (n : Nat) : Nat :=
  t.edgeEnd n - t.edgeBeg n

/-- Modelled from the spec: `out_edges(n)` as the list of edge IDs in
`[prev(n), adj_indices[n])`. -/
def GraphTopology.outEdges (t : GraphTopology) (n : Nat) : List Nat :=
  List.range' (t.edgeBeg n) (t.edgeEnd n - t.edgeBeg n)

/-- Modelled from the spec: `out_edge_dst(e) = dests[e]` (§4.1). -/
def GraphTopology.outEdgeDst (t : GraphTopology) (e : Nat) : Nat :=
  t.dests.getD e 0

/-- `GetEdgePropertyIndexFromOutEdge` (GraphTopology.cpp:86-91): identity when
the back-index array is absent. -/
def GraphTopology.getEdgePropIdx (t : GraphTopology) (e : Nat) : Nat :=
  if t.edge_prop_indices = [] then e else t.edge_prop_indices.getD e 0

/-- `GetNodePropertyIndex` (GraphTopology.cpp:93-97). -/
def GraphTopology.getNodePropIdx (t : GraphTopology) (n : Nat) : Nat :=
  if t.node_prop_indices = [] then n else t.node_prop_indices.getD n 0

/-- Well-formed CSR data, as stated by the spec (§3 and §8 invariant 1-2):
`adj_indices` non-decreasing, its last entry equals `E` (so `E = 0` when there
are no nodes), every destination in range, and each optional property array
either absent or of the right length. -/
def GraphTopology.WF (t : GraphTopology) : Prop :=
  (∀ i < t.numNodes, i + 1 < t.numNodes →
    t.adj_indices.getD i 0 ≤ t.adj_indices.getD (i + 1) 0) ∧
  (if t.numNodes = 0 then t.numEdges = 0
   else t.adj_indices.getD (t.numNodes - 1) 0 = t.numEdges) ∧
  (∀ e, e < t.numEdges → t.dests.getD e 0 < t.numNodes) ∧
  (t.edge_prop_indices = [] ∨ t.edge_prop_indices.length = t.numEdges) ∧
  (t.node_prop_indices = [] ∨ t.node_prop_indices.length = t.numNodes)

instance (t : GraphTopology) : Decidable t.WF := by
  unfold GraphTopology.WF
  infer_instance

/-- `GraphTopology::Copy` (GraphTopology.cpp:78-84), faithful to the source,
which passes `that.edge_prop_indices_.data()` for BOTH the edge and the node
property-index constructor arguments; the constructor (lines 40-64) copies
`num_edges` entries from the edge pointer and `num_nodes` entries from the node
pointer, skipping a null (empty-array) pointer. -/
def GraphTopology.copy (t : GraphTopology) : GraphTopology where
  adj_indices := t.adj_indices
  dests := t.dests
  edge_prop_indices :=
    if t.edge_prop_indices = [] then [] else t.edge_prop_indices.take t.numEdges
  node_prop_indices :=
    if t.edge_prop_indices = [] then [] else t.edge_prop_indices.take t.numNodes

/-- Example topology exposing the `Copy` slip: one node, one edge, edge
property row 5, node property row 7. -/
def copyBugTopo : GraphTopology :=
  { adj_indices := [1], dests := [0], edge_prop_indices := [5],
    node_prop_indices := [7] }

end Katana

/-- C8: FALSIFIED on the code.  `GraphTopology::Copy` is claimed to return a
topology whose node property index array equals the input's node property
index array; the source (GraphTopology.cpp:83) passes
`that.edge_prop_indices_.data()` as the node argument instead, so the copy's
node array is drawn from the edge property indices.  On `copyBugTopo`
(node array `[7]`, edge array `[5]`) the copy's node array is `[5]`. -/
theorem C8_copy_node_prop_bug :
    (Katana.GraphTopology.copy Katana.copyBugTopo).node_prop_indices = [5] ∧
    Katana.copyBugTopo.node_prop_indices = [7] ∧
    (Katana.GraphTopology.copy Katana.copyBugTopo).node_prop_indices ≠
      Katana.copyBugTopo.node_prop_indices := by
  decide

namespace Katana

theorem adj_getD_mono (t : GraphTopology) (h : t.WF) :
    ∀ i j, i ≤ j → j < t.numNodes →
      t.adj_indices.getD i 0 ≤ t.adj_indices.getD j 0 := by
  intro i j hij hj
  induction hij with
  | refl => exact le_refl _
  | @step m hm ih =>
    exact le_trans (ih (Nat.lt_of_succ_lt hj))
      (h.1 m (Nat.lt_of_succ_lt hj) hj)

theorem edgeBeg_le_edgeEnd (t : GraphTopology) (h : t.WF) {n : Nat}
    (hn : n < t.numNodes) : t.edgeBeg n ≤ t.edgeEnd n := by
  unfold GraphTopology.edgeBeg GraphTopology.edgeEnd
  by_cases h0 : n = 0
  · simp [h0]
  · simp only [if_neg h0]
    have h1 : n - 1 + 1 = n := Nat.succ_pred_eq_of_pos (Nat.pos_of_ne_zero h0)
    have := h.1 (n - 1) (lt_of_le_of_lt (Nat.pred_le n) hn) (by rw [h1]; exact hn)
    rwa [h1] at this

theorem edgeEnd_le_numEdges (t : GraphTopology) (h : t.WF) {n : Nat}
    (hn : n < t.numNodes) : t.edgeEnd n ≤ t.numEdges := by
  have hN : t.numNodes ≠ 0 := Nat.pos_iff_ne_zero.mp (lt_of_le_of_lt (Nat.zero_le _) hn)
  have hlast : t.adj_indices.getD (t.numNodes - 1) 0 = t.numEdges := by
    have := h.2.1
    rwa [if_neg hN] at this
  have := adj_getD_mono t h n (t.numNodes - 1)
    (Nat.le_pred_of_lt hn) (Nat.pred_lt hN)
  rw [hlast] at this
  exact this

theorem edgeBeg_succ_eq (t : GraphTopology) (n : Nat) :
    t.edgeBeg (n + 1) = t.edgeEnd n := by
  simp [GraphTopology.edgeBeg, GraphTopology.edgeEnd]

/-- Slice `[a, b)` of a list, embedding a sub-array view. -/
def slice (l : List α) (a b : Nat) : List α :=
  (l.drop a).take (b - a)

theorem flatMap_slices_eq (t : GraphTopology) (h : t.WF) {α : Type}
    (l : List α) (hl : l.length = t.numEdges) :
    (List.range t.numNodes).flatMap
      (fun n => slice l (t.edgeBeg n) (t.edgeEnd n)) = l := by
  have key : ∀ m, m ≤ t.numNodes →
      (List.range m).flatMap
        (fun n => slice l (t.edgeBeg n) (t.edgeEnd n)) = List.take (t.edgeBeg m) l := by
    intro m
    induction m with
    | zero => intro _; simp [GraphTopology.edgeBeg]
    | succ k ih =>
      intro hk
      have hkN : k < t.numNodes := Nat.lt_of_succ_le hk
      rw [List.range_succ, List.flatMap_append, ih (le_of_lt hkN)]
      simp only [List.flatMap_cons, List.flatMap_nil, List.append_nil]
      rw [edgeBeg_succ_eq, slice]
      have hbe := edgeBeg_le_edgeEnd t h hkN
      rw [show t.edgeEnd k = t.edgeBeg k + (t.edgeEnd k - t.edgeBeg k) from
        (Nat.add_sub_cancel' hbe).symm, List.take_add, Nat.add_sub_cancel_left]
  have := key t.numNodes (le_refl _)
  rw [this]
  by_cases hN : t.numNodes = 0
  · have hE : t.numEdges = 0 := by
      have := h.2.1; rwa [if_pos hN] at this
    have : l = [] := List.eq_nil_of_length_eq_zero (by rw [hl, hE])
    simp [this]
  · unfold GraphTopology.edgeBeg
    rw [if_neg hN]
    have hlast : t.adj_indices.getD (t.numNodes - 1) 0 = t.numEdges := by
      have := h.2.1; rwa [if_neg hN] at this
    rw [hlast, ← hl, List.take_length]

theorem flatMap_outEdges_eq (t : GraphTopology) (h : t.WF) :
    (List.range t.numNodes).flatMap t.outEdges = List.range t.numEdges := by
  have key : ∀ m, m ≤ t.numNodes →
      (List.range m).flatMap t.outEdges = List.range' 0 (t.edgeBeg m) := by
    intro m
    induction m with
    | zero => intro _; simp [GraphTopology.edgeBeg]
    | succ k ih =>
      intro hk
      have hkN : k < t.numNodes := Nat.lt_of_succ_le hk
      rw [List.range_succ, List.flatMap_append, ih (le_of_lt hkN)]
      simp only [List.flatMap_cons, List.flatMap_nil, List.append_nil]
      rw [edgeBeg_succ_eq, GraphTopology.outEdges]
      have hbe := edgeBeg_le_edgeEnd t h hkN
      have happ := List.range'_append 0 (t.edgeBeg k) (t.edgeEnd k - t.edgeBeg k) 1
      simp only [Nat.zero_add, Nat.one_mul] at happ
      rw [happ, Nat.sub_add_cancel hbe]
  have := key t.numNodes (le_refl _)
  rw [this, List.range_eq_range']
  by_cases hN : t.numNodes = 0
  · have hE : t.numEdges = 0 := by
      have := h.2.1; rwa [if_pos hN] at this
    simp [GraphTopology.edgeBeg, hN, hE]
  · unfold GraphTopology.edgeBeg
    rw [if_neg hN]
    have hlast : t.adj_indices.getD (t.numNodes - 1) 0 = t.numEdges := by
      have := h.2.1; rwa [if_neg hN] at this
    rw [hlast]

end Katana

namespace Katana

/-- `katana::RDGTopology::EdgeSortKind`. -/
inductive EdgeSortKind where
  | kAny
  | kSortedByDestID
  | kSortedByEdgeType
  | kSortedByDestType
deriving DecidableEq

/-- `katana::EdgeShuffleTopology`: a CSR plus transpose and edge-sort state
tags.  The transpose tag is a `Bool` standing for `TransposeKind::kYes`. -/
structure EdgeShuffleTopology extends GraphTopology where
  transposed : Bool
  edge_sort_state : EdgeSortKind
deriving DecidableEq

/-- Modelled from the spec: the header defining `has_edges_sorted_by` is not
under `src/`; §3 has each view carry an edge-sort state tag, and the predicate
compares the view's tag with the queried kind. -/
def EdgeShuffleTopology.hasEdgesSortedBy
    (t : EdgeShuffleTopology) (k : EdgeSortKind) : Bool :=
  decide (t.edge_sort_state = k)

/-- Well-formed edge-shuffle view: well-formed CSR whose edge property
back-index array is materialized (every `EdgeShuffleTopology` constructor in
the source populates `edge_prop_indices_`, via iota or copy). -/
def EdgeShuffleTopology.WFS (t : EdgeShuffleTopology) : Prop :=
  t.toGraphTopology.WF ∧ t.edge_prop_indices.length = t.numEdges

instance (t : EdgeShuffleTopology) : Decidable t.WFS := by
  unfold EdgeShuffleTopology.WFS
  infer_instance

/-- Strict comparator of `SortEdgesByDestID` (GraphTopology.cpp:344-353) on
the zipped `(edge_prop_index, dest)` tuples: `dst1 < dst2` (the property
index is moved along but never compared). -/
def destLt (a b : Nat × Nat) : Prop := a.2 < b.2

instance : DecidableRel destLt := by
  intro a b
  unfold destLt
  infer_instance

/-- Strict comparator of `SortEdgesByTypeThenDest` (GraphTopology.cpp:383-409):
`if (data1 != data2) return data1 < data2; … return dst1 < dst2;`, with `ty`
standing for the property graph's `GetTypeOfEdgeFromPropertyIndex`. -/
def typeThenDestLt (ty : Nat → Nat) (a b : Nat × Nat) : Prop :=
  ty a.1 < ty b.1 ∨ (ty a.1 = ty b.1 ∧ a.2 < b.2)

instance (ty : Nat → Nat) : DecidableRel (typeThenDestLt ty) := by
  intro a b
  unfold typeThenDestLt
  infer_instance

/-- Reflexive closure of `typeThenDestLt`: the order the sorted slices end up
in (`¬ typeThenDestLt ty b a` unfolds to exactly this). -/
def typeThenDestLe (ty : Nat → Nat) (a b : Nat × Nat) : Prop :=
  ty a.1 < ty b.1 ∨ (ty a.1 = ty b.1 ∧ a.2 ≤ b.2)

instance (ty : Nat → Nat) : DecidableRel (typeThenDestLe ty) := by
  intro a b
  unfold typeThenDestLe
  infer_instance

/-- A possible outcome of C++ `std::sort` with strict comparator `lt`: some
permutation of the input in which no later element compares strictly below an
earlier one.  `std::sort` is unstable — the relative order of equivalent
elements is unspecified — so the embedding is a relation rather than a
function: every list related to the input here is a legal result of some run,
and every run produces such a list. -/
def stdSortResult (lt : Nat × Nat → Nat × Nat → Prop)
    (l out : List (Nat × Nat)) : Prop :=
  out.Perm l ∧ out.Pairwise (fun a b => ¬ lt b a)

instance (lt : Nat × Nat → Nat × Nat → Prop) [DecidableRel lt]
    (l out : List (Nat × Nat)) : Decidable (stdSortResult lt l out) := by
  unfold stdSortResult
  infer_instance

/-- `SortEdgesByDestID` (GraphTopology.cpp:324-361) as an input/output
relation: each node's zipped `(edge_prop_indices, dests)` slice is replaced by
some `std::sort` outcome under the destination comparator, the slices are
written back in place (re-concatenated — the slices of consecutive nodes tile
the arrays under the CSR invariant), and the sort state is set to
`kSortedByDestID` (line 360). -/
def EdgeShuffleTopology.sortEdgesByDestIDRel
    (t out : EdgeShuffleTopology) : Prop :=
  ∃ ss : List (List (Nat × Nat)),
    ss.length = t.numNodes ∧
    (∀ n < t.numNodes,
      stdSortResult destLt
        (slice (t.edge_prop_indices.zip t.dests) (t.edgeBeg n) (t.edgeEnd n))
        (ss.getD n [])) ∧
    out = { adj_indices := t.adj_indices
            dests := ((List.range t.numNodes).flatMap (fun n => ss.getD n [])).map Prod.snd
            edge_prop_indices :=
              ((List.range t.numNodes).flatMap (fun n => ss.getD n [])).map Prod.fst
            node_prop_indices := t.node_prop_indices
            transposed := t.transposed
            edge_sort_state := .kSortedByDestID }

/-- `SortEdgesByTypeThenDest` (GraphTopology.cpp:363-415) as an input/output
relation, likewise; note the source sets the resulting state to
`kSortedByEdgeType` (line 414). -/
def EdgeShuffleTopology.sortEdgesByTypeThenDestRel
    (ty : Nat → Nat) (t out : EdgeShuffleTopology) : Prop :=
  ∃ ss : List (List (Nat × Nat)),
    ss.length = t.numNodes ∧
    (∀ n < t.numNodes,
      stdSortResult (typeThenDestLt ty)
        (slice (t.edge_prop_indices.zip t.dests) (t.edgeBeg n) (t.edgeEnd n))
        (ss.getD n [])) ∧
    out = { adj_indices := t.adj_indices
            dests := ((List.range t.numNodes).flatMap (fun n => ss.getD n [])).map Prod.snd
            edge_prop_indices :=
              ((List.range t.numNodes).flatMap (fun n => ss.getD n [])).map Prod.fst
            node_prop_indices := t.node_prop_indices
            transposed := t.transposed
            edge_sort_state := .kSortedByEdgeType }

/-- Lexicographic order on `(type, dest)` key pairs. -/
def keyLe (p q : Nat × Nat) : Prop := p.1 < q.1 ∨ (p.1 = q.1 ∧ p.2 ≤ q.2)

instance : IsAntisymm (Nat × Nat) keyLe where
  antisymm := by
    intro a b hab hba
    unfold keyLe at hab hba
    exact Prod.ext (by omega) (by omega)

/-- Any `std::sort` outcome of a slice already ordered by destination carries
the same destination sequence: the two destination lists are permutations of
one another and both nondecreasing. -/
theorem stdSort_dest_map_snd (l out : List (Nat × Nat))
    (hsort : l.Pairwise (fun a b => a.2 ≤ b.2))
    (h : stdSortResult destLt l out) :
    out.map Prod.snd = l.map Prod.snd := by
  have hperm : (out.map Prod.snd).Perm (l.map Prod.snd) := h.1.map _
  have hs1 : (out.map Prod.snd).Sorted (· ≤ ·) := by
    rw [List.Sorted, List.pairwise_map]
    exact h.2.imp (fun hab => Nat.le_of_not_lt hab)
  have hs2 : (l.map Prod.snd).Sorted (· ≤ ·) := by
    rw [List.Sorted, List.pairwise_map]
    exact hsort
  exact List.eq_of_perm_of_sorted hperm hs1 hs2

/-- Likewise for the type-then-destination comparator: the `(type, dest)` key
sequence of the outcome equals the input's. -/
theorem stdSort_typeDest_map_key (ty : Nat → Nat) (l out : List (Nat × Nat))
    (hsort : l.Pairwise (typeThenDestLe ty))
    (h : stdSortResult (typeThenDestLt ty) l out) :
    out.map (fun p => (ty p.1, p.2)) = l.map (fun p => (ty p.1, p.2)) := by
  have hperm := h.1.map (fun p : Nat × Nat => (ty p.1, p.2))
  have hs1 : (out.map (fun p : Nat × Nat => (ty p.1, p.2))).Sorted keyLe := by
    rw [List.Sorted, List.pairwise_map]
    refine h.2.imp ?_
    intro a b hab
    unfold typeThenDestLt at hab
    show ty a.1 < ty b.1 ∨ (ty a.1 = ty b.1 ∧ a.2 ≤ b.2)
    omega
  have hs2 : (l.map (fun p : Nat × Nat => (ty p.1, p.2))).Sorted keyLe := by
    rw [List.Sorted, List.pairwise_map]
    refine hsort.imp ?_
    intro a b hab
    unfold typeThenDestLe at hab
    show ty a.1 < ty b.1 ∨ (ty a.1 = ty b.1 ∧ a.2 ≤ b.2)
    exact hab
  exact List.eq_of_perm_of_sorted hperm hs1 hs2

/-- A permutation that preserves the key sequence is the identity when the
keys are pairwise distinct. -/
theorem perm_key_eq {β : Type} (key : Nat × Nat → β)
    (l out : List (Nat × Nat)) (hperm : out.Perm l)
    (hnd : (l.map key).Nodup) (hkeys : out.map key = l.map key) :
    out = l := by
  apply List.ext_getElem hperm.length_eq
  intro i h1 h2
  have hopt : Option.map key out[i]? = Option.map key l[i]? := by
    rw [← List.getElem?_map, ← List.getElem?_map, hkeys]
  rw [List.getElem?_eq_getElem h1, List.getElem?_eq_getElem h2] at hopt
  have hk : key out[i] = key l[i] := by
    simpa using hopt
  exact List.inj_on_of_nodup_map hnd (hperm.mem_iff.mp (List.getElem_mem h1))
    (List.getElem_mem h2) hk

end Katana

/-- Destination-sorted well-formed view with two equal-destination edges at
node 0 (destinations 1, 1 with property indices 0, 1). -/
def Katana.dupDestView : Katana.EdgeShuffleTopology :=
  { adj_indices := [2, 2], dests := [1, 1], edge_prop_indices := [0, 1],
    node_prop_indices := [], transposed := false,
    edge_sort_state := .kSortedByDestID }

/-- A legal `SortEdgesByDestID` outcome on `dupDestView` in which the unstable
`std::sort` swapped the two equal-destination tuples of node 0. -/
def Katana.dupDestSwapped : Katana.EdgeShuffleTopology :=
  { adj_indices := [2, 2], dests := [1, 1], edge_prop_indices := [1, 0],
    node_prop_indices := [], transposed := false,
    edge_sort_state := .kSortedByDestID }

/-- C5 counterexample: `dupDestView` is well formed and its per-node slices
are already sorted by destination, yet `dupDestSwapped` — whose
`edge_prop_indices` differ from `dupDestView`'s — is a possible result of
re-running `SortEdgesByDestID` on it: `std::sort`'s strict comparator
(GraphTopology.cpp:344-353) compares destinations only, and the order of
equivalent elements after an unstable sort is unspecified, so the claimed
bit-for-bit idempotence does not hold of the program. -/
theorem C5_counterexample :
    Katana.dupDestView.WFS ∧
    (∀ n < Katana.dupDestView.numNodes,
      (Katana.slice (Katana.dupDestView.edge_prop_indices.zip Katana.dupDestView.dests)
        (Katana.dupDestView.edgeBeg n) (Katana.dupDestView.edgeEnd n)).Pairwise
          (fun a b => a.2 ≤ b.2)) ∧
    Katana.dupDestView.sortEdgesByDestIDRel Katana.dupDestSwapped ∧
    Katana.dupDestSwapped.edge_prop_indices ≠ Katana.dupDestView.edge_prop_indices := by
  refine ⟨by decide, by decide,
    ⟨[[(1, 1), (0, 1)], []], by decide, by decide, by decide⟩, by decide⟩

/-- C5 as amended: for a well-formed view, any outcome of re-sorting preserves
`adj_indices` and `dests` bit-for-bit, each key under its own per-node
sortedness assumption alone (destination order for `SortEdgesByDestID`; type
then destination for `SortEdgesByTypeThenDest`); `edge_prop_indices` — and
hence the whole view — is also preserved when within every node's slice the
sort keys are pairwise distinct.  (With duplicate keys the unstable
`std::sort` may permute the property indices of equal-key edges; see
`C5_counterexample`.) -/
theorem C5_sort_idempotent_amended (ty : Nat → Nat)
    (t out : Katana.EdgeShuffleTopology) (hwf : t.WFS) :
    (t.sortEdgesByDestIDRel out →
      (∀ n < t.numNodes,
        (Katana.slice (t.edge_prop_indices.zip t.dests)
          (t.edgeBeg n) (t.edgeEnd n)).Pairwise (fun a b => a.2 ≤ b.2)) →
      out.adj_indices = t.adj_indices ∧ out.dests = t.dests ∧
      ((∀ n < t.numNodes,
          ((Katana.slice (t.edge_prop_indices.zip t.dests)
            (t.edgeBeg n) (t.edgeEnd n)).map Prod.snd).Nodup) →
        out.edge_prop_indices = t.edge_prop_indices)) ∧
    (t.sortEdgesByTypeThenDestRel ty out →
      (∀ n < t.numNodes,
        (Katana.slice (t.edge_prop_indices.zip t.dests)
          (t.edgeBeg n) (t.edgeEnd n)).Pairwise (Katana.typeThenDestLe ty)) →
      out.adj_indices = t.adj_indices ∧ out.dests = t.dests ∧
      ((∀ n < t.numNodes,
          ((Katana.slice (t.edge_prop_indices.zip t.dests)
            (t.edgeBeg n) (t.edgeEnd n)).map
              (fun p : Nat × Nat => (ty p.1, p.2))).Nodup) →
        out.edge_prop_indices = t.edge_prop_indices)) := by
  have hlenZ : (t.edge_prop_indices.zip t.dests).length = t.numEdges := by
    rw [List.length_zip, hwf.2]
    exact Nat.min_self _
  have hflat : (List.range t.numNodes).flatMap
      (fun n => Katana.slice (t.edge_prop_indices.zip t.dests)
        (t.edgeBeg n) (t.edgeEnd n)) =
      t.edge_prop_indices.zip t.dests :=
    Katana.flatMap_slices_eq t.toGraphTopology hwf.1 _ hlenZ
  constructor
  · rintro ⟨ss, hlen, hss, hout⟩ hsorted
    have hsnd : ∀ n ∈ List.range t.numNodes,
        (ss.getD n []).map Prod.snd =
        (Katana.slice (t.edge_prop_indices.zip t.dests)
          (t.edgeBeg n) (t.edgeEnd n)).map Prod.snd := by
      intro n hn
      rw [List.mem_range] at hn
      exact Katana.stdSort_dest_map_snd _ _ (hsorted n hn) (hss n hn)
    refine ⟨by rw [hout], ?_, ?_⟩
    · rw [hout]
      show ((List.range t.numNodes).flatMap (fun n => ss.getD n [])).map Prod.snd = t.dests
      rw [List.map_flatMap, List.flatMap_congr hsnd, ← List.map_flatMap, hflat]
      exact List.map_snd_zip _ _ (le_of_eq hwf.2.symm)
    · intro hnd
      have hslice : ∀ n ∈ List.range t.numNodes,
          ss.getD n [] =
          Katana.slice (t.edge_prop_indices.zip t.dests)
            (t.edgeBeg n) (t.edgeEnd n) := by
        intro n hn
        have hn2 := List.mem_range.mp hn
        exact Katana.perm_key_eq Prod.snd _ _ (hss n hn2).1 (hnd n hn2) (hsnd n hn)
      rw [hout]
      show ((List.range t.numNodes).flatMap (fun n => ss.getD n [])).map Prod.fst =
        t.edge_prop_indices
      rw [List.flatMap_congr hslice, hflat]
      exact List.map_fst_zip _ _ (le_of_eq hwf.2)
  · rintro ⟨ss, hlen, hss, hout⟩ hsorted
    have hkey : ∀ n ∈ List.range t.numNodes,
        (ss.getD n []).map (fun p : Nat × Nat => (ty p.1, p.2)) =
        (Katana.slice (t.edge_prop_indices.zip t.dests)
          (t.edgeBeg n) (t.edgeEnd n)).map (fun p : Nat × Nat => (ty p.1, p.2)) := by
      intro n hn
      rw [List.mem_range] at hn
      exact Katana.stdSort_typeDest_map_key ty _ _ (hsorted n hn) (hss n hn)
    have hsnd : ∀ n ∈ List.range t.numNodes,
        (ss.getD n []).map Prod.snd =
        (Katana.slice (t.edge_prop_indices.zip t.dests)
          (t.edgeBeg n) (t.edgeEnd n)).map Prod.snd := by
      intro n hn
      have hm := congrArg (List.map Prod.snd) (hkey n hn)
      rw [List.map_map, List.map_map] at hm
      exact hm
    refine ⟨by rw [hout], ?_, ?_⟩
    · rw [hout]
      show ((List.range t.numNodes).flatMap (fun n => ss.getD n [])).map Prod.snd = t.dests
      rw [List.map_flatMap, List.flatMap_congr hsnd, ← List.map_flatMap, hflat]
      exact List.map_snd_zip _ _ (le_of_eq hwf.2.symm)
    · intro hnd
      have hslice : ∀ n ∈ List.range t.numNodes,
          ss.getD n [] =
          Katana.slice (t.edge_prop_indices.zip t.dests)
            (t.edgeBeg n) (t.edgeEnd n) := by
        intro n hn
        have hn2 := List.mem_range.mp hn
        exact Katana.perm_key_eq (fun p : Nat × Nat => (ty p.1, p.2)) _ _
          (hss n hn2).1 (hnd n hn2) (hkey n hn)
      rw [hout]
      show ((List.range t.numNodes).flatMap (fun n => ss.getD n [])).map Prod.fst =
        t.edge_prop_indices
      rw [List.flatMap_congr hslice, hflat]
      exact List.map_fst_zip _ _ (le_of_eq hwf.2)

/-- Concrete already-sorted view: three nodes; node 0 has edges with
(type, dest) = (0, 1), (1, 2), node 1 has (2, 0), node 2 has none;
destinations and (type, dest) keys are strictly increasing per node. -/
def Katana.sortedViewS3 : Katana.EdgeShuffleTopology :=
  { adj_indices := [2, 3, 3], dests := [1, 2, 0], edge_prop_indices := [0, 1, 2],
    node_prop_indices := [], transposed := false,
    edge_sort_state := .kSortedByDestID }

/-- `sortedViewS3` after `SortEdgesByTypeThenDest`: same arrays, sort state
`kSortedByEdgeType`. -/
def Katana.sortedViewS3T : Katana.EdgeShuffleTopology :=
  { adj_indices := [2, 3, 3], dests := [1, 2, 0], edge_prop_indices := [0, 1, 2],
    node_prop_indices := [], transposed := false,
    edge_sort_state := .kSortedByEdgeType }

/-- Witness for `C5_sort_idempotent_amended` at `sortedViewS3` with type map
`ty = id` on property indices: the view is well formed, its slices are sorted
by (type, dest) with pairwise-distinct keys, `sortedViewS3T` is a possible
`SortEdgesByTypeThenDest` outcome, and the theorem yields that its `dests`
and `edge_prop_indices` equal the input's. -/
theorem C5_sort_idempotent_amended_witness :
    (Katana.sortedViewS3.WFS ∧
      Katana.sortedViewS3.sortEdgesByTypeThenDestRel (fun p => p) Katana.sortedViewS3T ∧
      (∀ n < Katana.sortedViewS3.numNodes,
        (Katana.slice (Katana.sortedViewS3.edge_prop_indices.zip Katana.sortedViewS3.dests)
          (Katana.sortedViewS3.edgeBeg n) (Katana.sortedViewS3.edgeEnd n)).Pairwise
            (Katana.typeThenDestLe (fun p => p))) ∧
      (∀ n < Katana.sortedViewS3.numNodes,
        ((Katana.slice (Katana.sortedViewS3.edge_prop_indices.zip Katana.sortedViewS3.dests)
          (Katana.sortedViewS3.edgeBeg n) (Katana.sortedViewS3.edgeEnd n)).map
            (fun p : Nat × Nat => (p.1, p.2))).Nodup)) ∧
    (Katana.sortedViewS3T.dests = Katana.sortedViewS3.dests ∧
      Katana.sortedViewS3T.edge_prop_indices = Katana.sortedViewS3.edge_prop_indices) := by
  have hrel : Katana.sortedViewS3.sortEdgesByTypeThenDestRel (fun p => p)
      Katana.sortedViewS3T :=
    ⟨[[(0, 1), (1, 2)], [(2, 0)], []], by decide, by decide, by decide⟩
  have hmain := C5_sort_idempotent_amended (fun p => p)
    Katana.sortedViewS3 Katana.sortedViewS3T (by decide)
  refine ⟨⟨by decide, hrel, by decide, by decide⟩, ?_, ?_⟩
  · exact (hmain.2 hrel (by decide)).2.1
  · exact (hmain.2 hrel (by decide)).2.2 (by decide)

namespace Katana

/-- `std::lower_bound` over edge IDs `[first, first+len)` comparing
`dests[e] < dst` (the `EdgeDestComparator`), written with a structural fuel
that is initialized to `len` (each round shrinks the window, so `len` rounds
always suffice). -/
def lowerBoundGo (d : List Nat) (dst : Nat) : Nat → Nat → Nat → Nat
  | 0, first, _ => first
  | fuel + 1, first, len =>
    if len = 0 then first
    else
      if d.getD (first + len / 2) 0 < dst then
        lowerBoundGo d dst fuel (first + len / 2 + 1) (len - len / 2 - 1)
      else
        lowerBoundGo d dst fuel first (len / 2)

def lowerBoundAux (d : List Nat) (dst first len : Nat) : Nat :=
  lowerBoundGo d dst len first len

/-- `std::upper_bound` counterpart (comparator `dst < dests[e]`), for
`std::equal_range` in `FindAllEdges`. -/
def upperBoundGo (d : List Nat) (dst : Nat) : Nat → Nat → Nat → Nat
  | 0, first, _ => first
  | fuel + 1, first, len =>
    if len = 0 then first
    else
      if dst < d.getD (first + len / 2) 0 then
        upperBoundGo d dst fuel first (len / 2)
      else
        upperBoundGo d dst fuel (first + len / 2 + 1) (len - len / 2 - 1)

def upperBoundAux (d : List Nat) (dst first len : Nat) : Nat :=
  upperBoundGo d dst len first len

/-- `std::find_if` scan of `[first, first+len)` for the first edge with
destination `dst` (the small-degree branch of `FindEdge`). -/
def linearFindAux (d : List Nat) (dst : Nat) : Nat → Nat → Nat
  | first, 0 => first
  | first, k + 1 =>
    if d.getD first 0 = dst then first else linearFindAux d dst (first + 1) k

/-- `EdgeShuffleTopology::FindEdge` (GraphTopology.cpp:264-293): linear scan
when the degree is at most the threshold 64, otherwise binary search by
`std::lower_bound` followed by a dereference of the returned iterator (even
when it is the end iterator) and a comparison against `dst`. -/
def EdgeShuffleTopology.findEdge (t : EdgeShuffleTopology) (src dst : Nat) : Nat :=
  if t.outDegree src ≤ 64 then
    linearFindAux t.dests dst (t.edgeBeg src) (t.outDegree src)
  else
    if t.toGraphTopology.outEdgeDst
        (lowerBoundAux t.dests dst (t.edgeBeg src) (t.outDegree src)) = dst then
      lowerBoundAux t.dests dst (t.edgeBeg src) (t.outDegree src)
    else
      t.edgeEnd src

/-- Destination-array indices `FindEdge` dereferences, in order: the linear
scan reads up to and including the match; the binary branch reads the probed
midpoints and finally `*iter` — also when `iter` is the end iterator. -/
def linearReads (d : List Nat) (dst : Nat) : Nat → Nat → List Nat
  | _, 0 => []
  | first, k + 1 =>
    first :: (if d.getD first 0 = dst then [] else linearReads d dst (first + 1) k)

def lowerBoundReads (d : List Nat) (dst : Nat) : Nat → Nat → Nat → List Nat
  | 0, _, _ => []
  | fuel + 1, first, len =>
    if len = 0 then []
    else
      (first + len / 2) ::
        (if d.getD (first + len / 2) 0 < dst then
          lowerBoundReads d dst fuel (first + len / 2 + 1) (len - len / 2 - 1)
        else
          lowerBoundReads d dst fuel first (len / 2))

def EdgeShuffleTopology.findEdgeReads
    (t : EdgeShuffleTopology) (src dst : Nat) : List Nat :=
  if t.outDegree src ≤ 64 then
    linearReads t.dests dst (t.edgeBeg src) (t.outDegree src)
  else
    lowerBoundReads t.dests dst (t.outDegree src) (t.edgeBeg src) (t.outDegree src) ++
      [lowerBoundAux t.dests dst (t.edgeBeg src) (t.outDegree src)]

/-- Condition of the `KATANA_LOG_VASSERT` guarding `FindAllEdges`
(GraphTopology.cpp:304-306), verbatim from the source:
`!has_edges_sorted_by(kSortedByDestID)`. -/
def EdgeShuffleTopology.findAllEdgesAssertCond (t : EdgeShuffleTopology) : Bool :=
  ! t.hasEdgesSortedBy .kSortedByDestID

/-- `EdgeShuffleTopology::FindAllEdges` (GraphTopology.cpp:295-322) as the
half-open result range: empty source range is returned as-is; otherwise
`std::equal_range` (lower/upper bound pair), with `(end, end)` when the lower
bound is the end or does not hit `dst`.  (In a debug build the inverted
assertion modelled by `findAllEdgesAssertCond` fires before this result is
produced; see C1.) -/
def EdgeShuffleTopology.findAllEdges
    (t : EdgeShuffleTopology) (src dst : Nat) : Nat × Nat :=
  if t.outDegree src = 0 then (t.edgeBeg src, t.edgeEnd src)
  else
    if lowerBoundAux t.dests dst (t.edgeBeg src) (t.outDegree src) = t.edgeEnd src ∨
        ¬ t.toGraphTopology.outEdgeDst
            (lowerBoundAux t.dests dst (t.edgeBeg src) (t.outDegree src)) = dst then
      (t.edgeEnd src, t.edgeEnd src)
    else
      (lowerBoundAux t.dests dst (t.edgeBeg src) (t.outDegree src),
        upperBoundAux t.dests dst (t.edgeBeg src) (t.outDegree src))

theorem lowerBoundGo_spec (d : List Nat) (dst : Nat) :
    ∀ fuel first len, len ≤ fuel →
    (∀ i j, first ≤ i → i ≤ j → j < first + len → d.getD i 0 ≤ d.getD j 0) →
    first ≤ lowerBoundGo d dst fuel first len ∧
    lowerBoundGo d dst fuel first len ≤ first + len ∧
    (∀ i, first ≤ i → i < lowerBoundGo d dst fuel first len → d.getD i 0 < dst) ∧
    (∀ i, lowerBoundGo d dst fuel first len ≤ i → i < first + len →
      dst ≤ d.getD i 0) := by
  intro fuel
  induction fuel with
  | zero =>
    intro first len hlen hs
    have h0 : len = 0 := Nat.le_zero.mp hlen
    subst h0
    refine ⟨le_refl _, Nat.le_add_right _ _, ?_, ?_⟩
    · intro i h1 h2
      exact absurd (lt_of_le_of_lt h1 h2) (lt_irrefl _)
    · intro i h1 h2
      exact absurd (lt_of_le_of_lt h1 h2) (lt_irrefl _)
  | succ fuel ih =>
    intro first len hlen hs
    by_cases h0 : len = 0
    · subst h0
      simp only [lowerBoundGo, if_pos rfl]
      refine ⟨le_refl _, Nat.le_add_right _ _, ?_, ?_⟩
      · intro i h1 h2
        exact absurd (lt_of_le_of_lt h1 h2) (lt_irrefl _)
      · intro i h1 h2
        exact absurd (lt_of_le_of_lt h1 h2) (lt_irrefl _)
    · have hpos : 0 < len := Nat.pos_of_ne_zero h0
      have hhalf : len / 2 < len := Nat.div_lt_self hpos (by omega)
      have harith : first + len / 2 + 1 + (len - len / 2 - 1) = first + len := by omega
      simp only [lowerBoundGo, if_neg h0]
      by_cases hlt : d.getD (first + len / 2) 0 < dst
      · rw [if_pos hlt]
        have hrec := ih (first + len / 2 + 1) (len - len / 2 - 1)
          (by omega)
          (by
            intro i j hi hij hj
            exact hs i j (by omega) hij (by omega))
        obtain ⟨r1, r2, r3, r4⟩ := hrec
        refine ⟨by omega, by omega, ?_, ?_⟩
        · intro i hi hilt
          by_cases hcase : i < first + len / 2 + 1
          · calc d.getD i 0 ≤ d.getD (first + len / 2) 0 :=
                  hs i (first + len / 2) hi (by omega) (by omega)
              _ < dst := hlt
          · exact r3 i (by omega) hilt
        · intro i hi hiub
          exact r4 i hi (by omega)
      · rw [if_neg hlt]
        have hrec := ih first (len / 2)
          (by omega)
          (by
            intro i j hi hij hj
            exact hs i j hi hij (by omega))
        obtain ⟨r1, r2, r3, r4⟩ := hrec
        refine ⟨r1, by omega, r3, ?_⟩
        intro i hi hiub
        by_cases hcase : i < first + len / 2
        · exact r4 i hi hcase
        · calc dst ≤ d.getD (first + len / 2) 0 := Nat.le_of_not_lt hlt
            _ ≤ d.getD i 0 := hs (first + len / 2) i (by omega) (by omega) hiub

theorem lowerBoundAux_spec (d : List Nat) (dst first len : Nat)
    (hs : ∀ i j, first ≤ i → i ≤ j → j < first + len → d.getD i 0 ≤ d.getD j 0) :
    first ≤ lowerBoundAux d dst first len ∧
    lowerBoundAux d dst first len ≤ first + len ∧
    (∀ i, first ≤ i → i < lowerBoundAux d dst first len → d.getD i 0 < dst) ∧
    (∀ i, lowerBoundAux d dst first len ≤ i → i < first + len →
      dst ≤ d.getD i 0) :=
  lowerBoundGo_spec d dst len first len (le_refl _) hs

theorem linearFindAux_spec (d : List Nat) (dst : Nat) :
    ∀ len first,
    first ≤ linearFindAux d dst first len ∧
    linearFindAux d dst first len ≤ first + len ∧
    (∀ i, first ≤ i → i < linearFindAux d dst first len → d.getD i 0 ≠ dst) ∧
    (linearFindAux d dst first len < first + len →
      d.getD (linearFindAux d dst first len) 0 = dst) := by
  intro len
  induction len with
  | zero =>
    intro first
    refine ⟨le_refl _, le_refl _, ?_, ?_⟩
    · intro i h1 h2
      exact absurd (lt_of_le_of_lt h1 h2) (lt_irrefl _)
    · intro h
      exact absurd h (lt_irrefl _)
  | succ k ih =>
    intro first
    simp only [linearFindAux]
    by_cases hhit : d.getD first 0 = dst
    · rw [if_pos hhit]
      refine ⟨le_refl _, by omega, ?_, fun _ => hhit⟩
      intro i h1 h2
      exact absurd (lt_of_le_of_lt h1 h2) (lt_irrefl _)
    · rw [if_neg hhit]
      obtain ⟨r1, r2, r3, r4⟩ := ih (first + 1)
      refine ⟨by omega, by omega, ?_, by
        intro h
        exact r4 (by omega)⟩
      intro i h1 h2
      by_cases hcase : i = first
      · rwa [hcase]
      · exact r3 i (by omega) h2

end Katana

namespace Katana

/-- C6's property exactly as the claim states it: binary search when the view
is sorted by destination AND the degree exceeds 64, otherwise a linear scan;
and in both cases an edge of `src` with destination `dst` is returned when one
exists, the end sentinel when not. -/
def claimC6Prop (t : EdgeShuffleTopology) (src dst : Nat) : Prop :=
  (t.hasEdgesSortedBy .kSortedByDestID = true ∧ 64 < t.outDegree src →
    t.findEdge src dst =
      (if t.toGraphTopology.outEdgeDst
          (lowerBoundAux t.dests dst (t.edgeBeg src) (t.outDegree src)) = dst then
        lowerBoundAux t.dests dst (t.edgeBeg src) (t.outDegree src)
      else t.edgeEnd src)) ∧
  (¬ (t.hasEdgesSortedBy .kSortedByDestID = true ∧ 64 < t.outDegree src) →
    t.findEdge src dst =
      linearFindAux t.dests dst (t.edgeBeg src) (t.outDegree src)) ∧
  ((∃ e ∈ t.toGraphTopology.outEdges src, t.toGraphTopology.outEdgeDst e = dst) →
    t.findEdge src dst ∈ t.toGraphTopology.outEdges src ∧
      t.toGraphTopology.outEdgeDst (t.findEdge src dst) = dst) ∧
  ((¬ ∃ e ∈ t.toGraphTopology.outEdges src, t.toGraphTopology.outEdgeDst e = dst) →
    t.findEdge src dst = t.edgeEnd src)

instance (t : EdgeShuffleTopology) (src dst : Nat) :
    Decidable (claimC6Prop t src dst) := by
  unfold claimC6Prop
  infer_instance

/-- Well-formed view that is NOT sorted by destination and has a node of
degree 65: destinations `1, 0, 0, …`.  `FindEdge` still binary-searches it. -/
def unsortedBigTopo : EdgeShuffleTopology :=
  { adj_indices := [65, 65], dests := 1 :: List.replicate 64 0,
    edge_prop_indices := List.range 65, node_prop_indices := [],
    transposed := false, edge_sort_state := .kAny }

/-- Well-formed view sorted by destination with a node of degree 65 whose
edge range ends at `NumEdges()`; binary search for an absent, larger
destination probes the end slot. -/
def sortedBigTopo : EdgeShuffleTopology :=
  { adj_indices := [65, 65], dests := List.replicate 65 0,
    edge_prop_indices := List.range 65, node_prop_indices := [],
    transposed := false, edge_sort_state := .kSortedByDestID }

end Katana

/-- C6 counterexample: on the well-formed but unsorted degree-65 view, with
`dst = 1` present at the first edge, the code binary-searches anyway (the
claim's dispatch says linear scan) and returns the end sentinel 65 although a
matching edge exists — so the claim, as stated, is false at this input. -/
theorem C6_counterexample :
    Katana.unsortedBigTopo.WFS ∧
    ¬ Katana.claimC6Prop Katana.unsortedBigTopo 0 1 := by
  decide

/-- C6 as amended: `FindEdge(src, dst)` dispatches on degree alone — linear
scan iff the out-degree of `src` is at most 64, binary search iff it exceeds
64 — regardless of the view's sort tag; the linear scan always returns an
edge of `src` with destination `dst` when one exists and the end sentinel of
`src`'s range when none does, and the binary search does so when the
destination slice of `src` is in fact sorted. -/
theorem C6_find_edge_amended (t : Katana.EdgeShuffleTopology) (src dst : Nat)
    (hwf : t.WFS) (hsrc : src < t.numNodes) :
    (t.outDegree src ≤ 64 →
      t.findEdge src dst =
        Katana.linearFindAux t.dests dst (t.edgeBeg src) (t.outDegree src)) ∧
    (64 < t.outDegree src →
      t.findEdge src dst =
        (if t.toGraphTopology.outEdgeDst
            (Katana.lowerBoundAux t.dests dst (t.edgeBeg src) (t.outDegree src)) = dst then
          Katana.lowerBoundAux t.dests dst (t.edgeBeg src) (t.outDegree src)
        else t.edgeEnd src)) ∧
    (t.outDegree src ≤ 64 →
      ((∃ e ∈ t.toGraphTopology.outEdges src, t.toGraphTopology.outEdgeDst e = dst) →
        t.findEdge src dst ∈ t.toGraphTopology.outEdges src ∧
          t.toGraphTopology.outEdgeDst (t.findEdge src dst) = dst) ∧
      ((¬ ∃ e ∈ t.toGraphTopology.outEdges src, t.toGraphTopology.outEdgeDst e = dst) →
        t.findEdge src dst = t.edgeEnd src)) ∧
    (64 < t.outDegree src →
      (∀ i < t.numEdges, ∀ j < t.numEdges,
        t.edgeBeg src ≤ i → i ≤ j → j < t.edgeEnd src →
        t.dests.getD i 0 ≤ t.dests.getD j 0) →
      ((∃ e ∈ t.toGraphTopology.outEdges src, t.toGraphTopology.outEdgeDst e = dst) →
        t.findEdge src dst ∈ t.toGraphTopology.outEdges src ∧
          t.toGraphTopology.outEdgeDst (t.findEdge src dst) = dst) ∧
      ((¬ ∃ e ∈ t.toGraphTopology.outEdges src, t.toGraphTopology.outEdgeDst e = dst) →
        t.findEdge src dst = t.edgeEnd src)) := by
  have hbe : t.edgeBeg src ≤ t.edgeEnd src :=
    Katana.edgeBeg_le_edgeEnd t.toGraphTopology hwf.1 hsrc
  have heE : t.edgeEnd src ≤ t.numEdges :=
    Katana.edgeEnd_le_numEdges t.toGraphTopology hwf.1 hsrc
  have hdeg : t.edgeBeg src + t.outDegree src = t.edgeEnd src := by
    unfold Katana.GraphTopology.outDegree
    omega
  have hmem : ∀ e, e ∈ t.toGraphTopology.outEdges src ↔
      t.edgeBeg src ≤ e ∧ e < t.edgeBeg src + t.outDegree src := by
    intro e
    unfold Katana.GraphTopology.outEdges
    rw [List.mem_range'_1]
    unfold Katana.GraphTopology.outDegree
    omega
  refine ⟨?_, ?_, ?_, ?_⟩
  · intro h
    unfold Katana.EdgeShuffleTopology.findEdge
    rw [if_pos h]
  · intro h
    unfold Katana.EdgeShuffleTopology.findEdge
    rw [if_neg (by omega)]
  · intro hd64
    obtain ⟨l1, l2, l3, l4⟩ :=
      Katana.linearFindAux_spec t.dests dst (t.outDegree src) (t.edgeBeg src)
    have hres : t.findEdge src dst =
        Katana.linearFindAux t.dests dst (t.edgeBeg src) (t.outDegree src) := by
      unfold Katana.EdgeShuffleTopology.findEdge
      rw [if_pos hd64]
    constructor
    · rintro ⟨e, he, hde⟩
      rw [hmem e] at he
      rw [hres]
      have hlt : Katana.linearFindAux t.dests dst (t.edgeBeg src) (t.outDegree src) <
          t.edgeBeg src + t.outDegree src := by
        rcases Nat.lt_or_ge (Katana.linearFindAux t.dests dst (t.edgeBeg src)
          (t.outDegree src)) (t.edgeBeg src + t.outDegree src) with hc | hc
        · exact hc
        · exfalso
          exact l3 e he.1 (by omega) hde
      exact ⟨(hmem _).mpr ⟨l1, hlt⟩, l4 hlt⟩
    · intro hno
      rw [hres]
      rcases Nat.lt_or_ge (Katana.linearFindAux t.dests dst (t.edgeBeg src)
        (t.outDegree src)) (t.edgeBeg src + t.outDegree src) with hc | hc
      · exfalso
        exact hno ⟨_, (hmem _).mpr ⟨l1, hc⟩, l4 hc⟩
      · omega
  · intro hd64 hsorted
    have hs' : ∀ i j, t.edgeBeg src ≤ i → i ≤ j →
        j < t.edgeBeg src + t.outDegree src →
        t.dests.getD i 0 ≤ t.dests.getD j 0 := by
      intro i j h1 h2 h3
      exact hsorted i (by omega) j (by omega) h1 h2 (by omega)
    obtain ⟨b1, b2, b3, b4⟩ :=
      Katana.lowerBoundAux_spec t.dests dst (t.edgeBeg src) (t.outDegree src) hs'
    constructor
    · rintro ⟨e, he, hde⟩
      rw [hmem e] at he
      have hble : Katana.lowerBoundAux t.dests dst (t.edgeBeg src) (t.outDegree src) ≤ e := by
        by_contra hc
        exact absurd hde (Nat.ne_of_lt (b3 e he.1 (by omega)))
      have hblt : Katana.lowerBoundAux t.dests dst (t.edgeBeg src) (t.outDegree src) <
          t.edgeBeg src + t.outDegree src := by omega
      have hval : t.dests.getD
          (Katana.lowerBoundAux t.dests dst (t.edgeBeg src) (t.outDegree src)) 0 = dst := by
        have hge := b4 _ (le_refl _) hblt
        have hle' := hs' _ e b1 hble (by omega)
        unfold Katana.GraphTopology.outEdgeDst at hde
        omega
      have hres : t.findEdge src dst =
          Katana.lowerBoundAux t.dests dst (t.edgeBeg src) (t.outDegree src) := by
        unfold Katana.EdgeShuffleTopology.findEdge
        rw [if_neg (by omega), if_pos (by
          unfold Katana.GraphTopology.outEdgeDst
          exact hval)]
      rw [hres]
      exact ⟨(hmem _).mpr ⟨b1, hblt⟩, hval⟩
    · intro hno
      by_cases hhit : t.dests.getD
          (Katana.lowerBoundAux t.dests dst (t.edgeBeg src) (t.outDegree src)) 0 = dst
      · have hend : Katana.lowerBoundAux t.dests dst (t.edgeBeg src) (t.outDegree src) =
            t.edgeEnd src := by
          rcases Nat.lt_or_ge (Katana.lowerBoundAux t.dests dst (t.edgeBeg src)
            (t.outDegree src)) (t.edgeBeg src + t.outDegree src) with hc | hc
          · exfalso
            exact hno ⟨_, (hmem _).mpr ⟨b1, hc⟩, hhit⟩
          · omega
        unfold Katana.EdgeShuffleTopology.findEdge
        rw [if_neg (by omega), if_pos (by
          unfold Katana.GraphTopology.outEdgeDst
          exact hhit)]
        exact hend
      · unfold Katana.EdgeShuffleTopology.findEdge
        rw [if_neg (by omega), if_neg (by
          unfold Katana.GraphTopology.outEdgeDst
          exact hhit)]

/-- Witness for `C6_find_edge_amended`: on the sorted degree-65 view the
binary branch finds the present destination 0, and on the unsorted degree-65
view the binary-dispatch conclusion applies with no sortedness assumption
at all. -/
theorem C6_find_edge_amended_witness :
    (Katana.sortedBigTopo.WFS ∧ 0 < Katana.sortedBigTopo.numNodes ∧
      64 < Katana.sortedBigTopo.outDegree 0 ∧
      Katana.unsortedBigTopo.WFS ∧
      Katana.unsortedBigTopo.hasEdgesSortedBy .kSortedByDestID = false) ∧
    ((∃ e ∈ Katana.sortedBigTopo.toGraphTopology.outEdges 0,
        Katana.sortedBigTopo.toGraphTopology.outEdgeDst e = 0) →
      Katana.sortedBigTopo.findEdge 0 0 ∈
          Katana.sortedBigTopo.toGraphTopology.outEdges 0 ∧
        Katana.sortedBigTopo.toGraphTopology.outEdgeDst
          (Katana.sortedBigTopo.findEdge 0 0) = 0) ∧
    Katana.unsortedBigTopo.findEdge 0 1 =
      (if Katana.unsortedBigTopo.toGraphTopology.outEdgeDst
          (Katana.lowerBoundAux Katana.unsortedBigTopo.dests 1
            (Katana.unsortedBigTopo.edgeBeg 0) (Katana.unsortedBigTopo.outDegree 0)) = 1 then
        Katana.lowerBoundAux Katana.unsortedBigTopo.dests 1
          (Katana.unsortedBigTopo.edgeBeg 0) (Katana.unsortedBigTopo.outDegree 0)
      else Katana.unsortedBigTopo.edgeEnd 0) := by
  refine ⟨⟨by decide, by decide, by decide, by decide, by decide⟩, ?_, ?_⟩
  · exact ((C6_find_edge_amended Katana.sortedBigTopo 0 0
      (by decide) (by decide)).2.2.2 (by decide) (by decide)).1
  · exact (C6_find_edge_amended Katana.unsortedBigTopo 0 1
      (by decide) (by decide)).2.1 (by decide)

/-- C9: FALSIFIED on the code.  On the well-formed, destination-sorted view
`sortedBigTopo` (node 0 has 65 edges, all to destination 0, and its edge range
ends at `NumEdges() = 65`), `FindEdge(0, 1)` takes the binary-search branch
and, because `dst = 1` exceeds every destination of node 0, `std::lower_bound`
returns the end iterator, which the code then dereferences: the read index 65
equals `NumEdges()` — not strictly less as the claim requires. -/
theorem C9_find_edge_reads_out_of_bounds :
    Katana.sortedBigTopo.WFS ∧
    Katana.sortedBigTopo.hasEdgesSortedBy .kSortedByDestID = true ∧
    List.Pairwise (· ≤ ·) Katana.sortedBigTopo.dests ∧
    64 < Katana.sortedBigTopo.outDegree 0 ∧
    Katana.sortedBigTopo.toGraphTopology.numEdges ∈
      Katana.sortedBigTopo.findEdgeReads 0 1 := by
  decide

/-- C1: FALSIFIED on the code (inverted assertion).  `FindAllEdges` requires a
view sorted by destination (per the spec and the assertion's own message
"Must have edges sorted by kSortedByDestID"), but the `KATANA_LOG_VASSERT` at
GraphTopology.cpp:304-306 asserts `!has_edges_sorted_by(kSortedByDestID)`:
on every view that satisfies the claimed precondition the asserted condition
evaluates to false, so the assertion fires instead of holding. -/
theorem C1_find_all_edges_assert_inverted (t : Katana.EdgeShuffleTopology)
    (h : t.hasEdgesSortedBy .kSortedByDestID = true) :
    t.findAllEdgesAssertCond = false := by
  unfold Katana.EdgeShuffleTopology.findAllEdgesAssertCond
  rw [h]
  rfl

/-- Witness: the sorted view `sortedViewS3` (with node 0 having out-edges)
satisfies the claim's hypotheses, and on it the asserted condition is false. -/
theorem C1_find_all_edges_assert_inverted_witness :
    (Katana.sortedViewS3.hasEdgesSortedBy .kSortedByDestID = true ∧
      0 < Katana.sortedViewS3.outDegree 0) ∧
    Katana.sortedViewS3.findAllEdgesAssertCond = false := by
  refine ⟨⟨by decide, by decide⟩, ?_⟩
  exact C1_find_all_edges_assert_inverted Katana.sortedViewS3 (by decide)

namespace Katana

/-- Ordered duplicate-free insertion: the effect of `std::set::insert` on the
sorted-ascending element list of the set. -/
def setInsert (x : Nat) : List Nat → List Nat
  | [] => [x]
  | y :: ys =>
    if x < y then x :: y :: ys
    else if x = y then y :: ys
    else y :: setInsert x ys

theorem mem_setInsert (a x : Nat) (s : List Nat) :
    a ∈ setInsert x s ↔ a = x ∨ a ∈ s := by
  induction s with
  | nil => simp [setInsert]
  | cons y ys ih =>
    unfold setInsert
    split_ifs with h1 h2
    · simp only [List.mem_cons]
    · subst h2
      simp only [List.mem_cons]
      tauto
    · simp only [List.mem_cons, ih]
      tauto

theorem pairwise_setInsert (x : Nat) (s : List Nat)
    (h : List.Pairwise (· < ·) s) :
    List.Pairwise (· < ·) (setInsert x s) := by
  induction s with
  | nil => simp [setInsert]
  | cons y ys ih =>
    unfold setInsert
    obtain ⟨hy, hys⟩ := List.pairwise_cons.mp h
    by_cases h1 : x < y
    · rw [if_pos h1]
      exact List.pairwise_cons.mpr
        ⟨by
          intro b hb
          rcases List.mem_cons.mp hb with hb | hb
          · omega
          · exact lt_trans h1 (hy b hb), h⟩
    · rw [if_neg h1]
      by_cases h2 : x = y
      · rw [if_pos h2]; exact h
      · rw [if_neg h2]
        exact List.pairwise_cons.mpr
          ⟨by
            intro b hb
            rcases (mem_setInsert b x ys).mp hb with hb | hb
            · omega
            · exact hy b hb, ih hys⟩

/-- `CondensedTypeIDMap::MakeFromEdgeTypes` (GraphTopology.cpp:516-559): the
types of all edges (obtained through `GetTypeOfEdgeFromTopoIndex`, here the
function `tyTopo`) are collected into per-thread sets that are merged into one
ordered `std::set`; sequentially this is a left fold of ordered duplicate-free
insertion over the edge index range.  The resulting ascending list is the
`index -> type` vector; `type -> index` assigns each type its position. -/
def presentEdgeTypes (tyTopo : Nat → Nat) (E : Nat) : List Nat :=
  ((List.range E).map tyTopo).foldl (fun s x => setInsert x s) []

def typeToIndex (types : List Nat) (x : Nat) : Nat :=
  List.indexOf x types

def indexToType (types : List Nat) (i : Nat) : Nat :=
  types.getD i 0

theorem mem_foldl_setInsert (l : List Nat) :
    ∀ (init : List Nat) (a : Nat),
      a ∈ l.foldl (fun s x => setInsert x s) init ↔ a ∈ init ∨ a ∈ l := by
  induction l with
  | nil => intro init a; simp
  | cons x xs ih =>
    intro init a
    simp only [List.foldl_cons, ih (setInsert x init) a, mem_setInsert,
      List.mem_cons]
    tauto

theorem pairwise_foldl_setInsert (l : List Nat) :
    ∀ (init : List Nat), List.Pairwise (· < ·) init →
      List.Pairwise (· < ·) (l.foldl (fun s x => setInsert x s) init) := by
  induction l with
  | nil => intro init h; exact h
  | cons x xs ih =>
    intro init h
    exact ih (setInsert x init) (pairwise_setInsert x init h)

theorem presentEdgeTypes_sorted (tyTopo : Nat → Nat) (E : Nat) :
    List.Pairwise (· < ·) (presentEdgeTypes tyTopo E) :=
  pairwise_foldl_setInsert _ [] List.Pairwise.nil

theorem mem_presentEdgeTypes (tyTopo : Nat → Nat) (E a : Nat) :
    a ∈ presentEdgeTypes tyTopo E ↔ ∃ e, e < E ∧ tyTopo e = a := by
  unfold presentEdgeTypes
  rw [mem_foldl_setInsert]
  simp only [List.not_mem_nil, false_or, List.mem_map, List.mem_range]

end Katana

/-- C7: condensed type map bijection.  For the map built by
`MakeFromEdgeTypes`, every edge type `X` present among the graph's edges
satisfies `index_to_type[type_to_index[X]] == X` with a dense index in
`[0, T)`; conversely every index in `[0, T)` is the index of a present type,
so the two maps are mutually inverse bijections over present types. -/
theorem C7_condensed_map_bijection (tyTopo : Nat → Nat) (E X : Nat)
    (hp : ∃ e, e < E ∧ tyTopo e = X) :
    Katana.typeToIndex (Katana.presentEdgeTypes tyTopo E) X <
      (Katana.presentEdgeTypes tyTopo E).length ∧
    Katana.indexToType (Katana.presentEdgeTypes tyTopo E)
      (Katana.typeToIndex (Katana.presentEdgeTypes tyTopo E) X) = X ∧
    (∀ i < (Katana.presentEdgeTypes tyTopo E).length,
      Katana.typeToIndex (Katana.presentEdgeTypes tyTopo E)
        (Katana.indexToType (Katana.presentEdgeTypes tyTopo E) i) = i ∧
      ∃ e, e < E ∧
        tyTopo e = Katana.indexToType (Katana.presentEdgeTypes tyTopo E) i) := by
  have hmem : X ∈ Katana.presentEdgeTypes tyTopo E :=
    (Katana.mem_presentEdgeTypes tyTopo E X).mpr hp
  have hlt : List.indexOf X (Katana.presentEdgeTypes tyTopo E) <
      (Katana.presentEdgeTypes tyTopo E).length :=
    List.indexOf_lt_length.mpr hmem
  have hnodup : (Katana.presentEdgeTypes tyTopo E).Nodup :=
    (Katana.presentEdgeTypes_sorted tyTopo E).nodup
  refine ⟨hlt, ?_, ?_⟩
  · unfold Katana.indexToType Katana.typeToIndex
    rw [List.getD_eq_getElem _ _ hlt]
    exact List.getElem_indexOf hlt
  · intro i hi
    unfold Katana.indexToType Katana.typeToIndex
    rw [List.getD_eq_getElem _ _ hi]
    constructor
    · exact List.indexOf_getElem hnodup i hi
    · exact (Katana.mem_presentEdgeTypes tyTopo E _).mp (List.getElem_mem hi)

/-- Witness for `C7_condensed_map_bijection`: four edges with sparse types
`9, 4, 9, 7`, querying present type `X = 7`. -/
theorem C7_condensed_map_bijection_witness :
    (∃ e, e < 4 ∧ [9, 4, 9, 7].getD e 0 = 7) ∧
    Katana.indexToType (Katana.presentEdgeTypes (fun e => [9, 4, 9, 7].getD e 0) 4)
      (Katana.typeToIndex
        (Katana.presentEdgeTypes (fun e => [9, 4, 9, 7].getD e 0) 4) 7) = 7 := by
  refine ⟨by decide, ?_⟩
  exact (C7_condensed_map_bijection (fun e => [9, 4, 9, 7].getD e 0) 4 7
    (by decide)).2.1

namespace Katana

/-- The `(src, dst, edge-property-index)` triples of a topology, row-ordered:
node by node, each node's out-edges in order.  This is both the notion of
graph-equivalence used by the spec (as a multiset) and the iteration order of
the sequential embedding of the scatter loop in `MakeTransposeCopy`. -/
def GraphTopology.triples (t : GraphTopology) : List (Nat × Nat × Nat) :=
  (List.range t.numNodes).flatMap
    (fun n => (t.outEdges n).map
      (fun e => (n, t.outEdgeDst e, t.getEdgePropIdx e)))

def swapTriple (tr : Nat × Nat × Nat) : Nat × Nat × Nat :=
  (tr.2.1, tr.1, tr.2.2)

/-- One atomic `__sync_add_and_fetch(&out_indices[dest], 1)` of the counting
pass (GraphTopology.cpp:137-145). -/
def bumpAt (c : List Nat) (d : Nat) : List Nat :=
  c.set d (c.getD d 0 + 1)

/-- The counting pass: in-degree counters over all edges, sequentialized in
edge-index order (the adds commute). -/
def inCounts (t : GraphTopology) : List Nat :=
  (List.range t.numEdges).foldl
    (fun c e => bumpAt c (t.outEdgeDst e))
    (List.replicate t.numNodes 0)

/-- `katana::ParallelSTL::partial_sum` (inclusive scan). -/
def scanSum (acc : Nat) : List Nat → List Nat
  | [] => []
  | x :: xs => (acc + x) :: scanSum (acc + x) xs

/-- Sum of the first `d` counters: the start offset of destination `d`'s block
in the transposed edge array. -/
def sumTake (c : List Nat) (d : Nat) : Nat :=
  (c.take d).sum

/-- One scatter step (GraphTopology.cpp:161-179): for edge `(src → dst)` with
property index `p`, fetch-and-add `out_dests_offset[dst]` to get the write
slot `w` and store `(src, p)` there. -/
def scatterStep (st : List Nat × List (Nat × Nat)) (tr : Nat × Nat × Nat) :
    List Nat × List (Nat × Nat) :=
  (st.1.set tr.2.1 (st.1.getD tr.2.1 0 + 1),
   st.2.set (st.1.getD tr.2.1 0) (tr.1, tr.2.2))

/-- `EdgeShuffleTopology::MakeTransposeCopy` (GraphTopology.cpp:111-188),
sequentialized: empty topology short-circuits to an empty transposed view;
otherwise count in-degrees, prefix-sum them into the new `adj_indices`,
derive the per-destination scatter offsets `[0, adj[0], adj[1], …]`, and
scatter every original edge `(src, dst, p)` to slot `offset[dst]++` as
`(dests[w], eprop[w]) = (src, p)`.  The freshly allocated output arrays are
zero-initialized here; every slot is overwritten (proved below). -/
def transposeOf (t : GraphTopology) : EdgeShuffleTopology :=
  if t.numNodes = 0 then
    { adj_indices := [], dests := [], edge_prop_indices := [],
      node_prop_indices := [], transposed := true, edge_sort_state := .kAny }
  else
    { adj_indices := scanSum 0 (inCounts t)
      dests :=
        (t.triples.foldl scatterStep
          (0 :: (scanSum 0 (inCounts t)).take (t.numNodes - 1),
            List.replicate t.numEdges (0, 0))).2.map Prod.fst
      edge_prop_indices :=
        (t.triples.foldl scatterStep
          (0 :: (scanSum 0 (inCounts t)).take (t.numNodes - 1),
            List.replicate t.numEdges (0, 0))).2.map Prod.snd
      node_prop_indices := []
      transposed := true
      edge_sort_state := .kAny }

theorem getD_set_eq {α : Type} (c : List α) (i : Nat) (v d₀ : α)
    (h : i < c.length) : (c.set i v).getD i d₀ = v := by
  rw [List.getD_eq_getElem _ _ (by rw [List.length_set]; exact h),
    List.getElem_set]
  simp

theorem getD_set_ne {α : Type} (c : List α) (i j : Nat) (v d₀ : α)
    (h : i ≠ j) : (c.set i v).getD j d₀ = c.getD j d₀ := by
  by_cases hj : j < c.length
  · rw [List.getD_eq_getElem _ _ (by rw [List.length_set]; exact hj),
      List.getD_eq_getElem _ _ hj, List.getElem_set, if_neg h]
  · rw [List.getD_eq_default _ _ (by rw [List.length_set]; omega),
      List.getD_eq_default _ _ (by omega)]

theorem getD_map {α β : Type} (f : α → β) (l : List α) (i : Nat)
    (x : α) (y : β) (h : i < l.length) :
    (l.map f).getD i y = f (l.getD i x) := by
  rw [List.getD_eq_getElem _ _ (by rw [List.length_map]; exact h),
    List.getD_eq_getElem _ _ h, List.getElem_map]

theorem scanSum_length (c : List Nat) : ∀ acc, (scanSum acc c).length = c.length := by
  induction c with
  | nil => intro acc; rfl
  | cons x xs ih =>
    intro acc
    simp only [scanSum, List.length_cons, ih]

theorem scanSum_getD (c : List Nat) :
    ∀ acc n, n < c.length →
      (scanSum acc c).getD n 0 = acc + sumTake c (n + 1) := by
  induction c with
  | nil => intro acc n hn; simp at hn
  | cons x xs ih =>
    intro acc n hn
    match n with
    | 0 =>
      simp [scanSum, sumTake, List.getD_cons_zero]
    | m + 1 =>
      have hm : m < xs.length := by simpa using hn
      simp only [scanSum, List.getD_cons_succ]
      rw [ih (acc + x) m hm]
      simp only [sumTake, List.take_succ_cons, List.sum_cons]
      omega

theorem sumTake_succ (c : List Nat) (d : Nat) (h : d < c.length) :
    sumTake c (d + 1) = sumTake c d + c.getD d 0 := by
  unfold sumTake
  rw [List.sum_take_succ c d h, List.getD_eq_getElem _ _ h]

theorem sumTake_mono (c : List Nat) {a b : Nat} (h : a ≤ b) :
    sumTake c a ≤ sumTake c b := by
  induction b with
  | zero =>
    have : a = 0 := by omega
    subst this
    exact le_refl _
  | succ k ih =>
    by_cases hak : a = k + 1
    · subst hak; exact le_refl _
    · have ha : a ≤ k := by omega
      by_cases hk : k < c.length
      · calc sumTake c a ≤ sumTake c k := ih ha
          _ ≤ sumTake c (k + 1) := by rw [sumTake_succ c k hk]; omega
      · have : c.take (k + 1) = c.take k := by
          rw [List.take_of_length_le (by omega), List.take_of_length_le (by omega)]
        unfold sumTake
        rw [this]
        exact ih ha

theorem foldl_bump_length (f : Nat → Nat) (l : List Nat) :
    ∀ c : List Nat, (l.foldl (fun c e => bumpAt c (f e)) c).length = c.length := by
  induction l with
  | nil => intro c; rfl
  | cons e l ih =>
    intro c
    simp only [List.foldl_cons]
    rw [ih (bumpAt c (f e))]
    simp [bumpAt]

theorem foldl_bump_getD (f : Nat → Nat) (l : List Nat) :
    ∀ (c : List Nat) (d : Nat), d < c.length →
      (l.foldl (fun c e => bumpAt c (f e)) c).getD d 0 =
        c.getD d 0 + l.countP (fun e => f e = d) := by
  induction l with
  | nil => intro c d _; simp
  | cons e l ih =>
    intro c d hd
    simp only [List.foldl_cons, List.countP_cons]
    rw [ih (bumpAt c (f e)) d (by simp only [bumpAt, List.length_set]; exact hd)]
    simp only [bumpAt]
    by_cases he : f e = d
    · subst he
      rw [getD_set_eq c (f e) _ 0 hd]
      norm_num
      omega
    · rw [getD_set_ne c (f e) d _ 0 he]
      simp [he]

end Katana

namespace Katana

/-- Number of triples in `P` with destination `d`. -/
def destCount (P : List (Nat × Nat × Nat)) (d : Nat) : Nat :=
  P.countP (fun tr => tr.2.1 = d)

/-- The `(src, prop)` pairs of `P`'s triples with destination `d`, in order:
the contents destination `d`'s block must have after the scatter. -/
def destGroup (P : List (Nat × Nat × Nat)) (d : Nat) : List (Nat × Nat) :=
  (P.filter (fun tr => tr.2.1 = d)).map (fun tr => (tr.1, tr.2.2))

theorem destGroup_length (P : List (Nat × Nat × Nat)) (d : Nat) :
    (destGroup P d).length = destCount P d := by
  simp [destGroup, destCount, List.countP_eq_length_filter]

theorem destCount_le_append (P S : List (Nat × Nat × Nat)) (d : Nat) :
    destCount P d ≤ destCount (P ++ S) d := by
  simp only [destCount, List.countP_append]
  omega

/-- Invariant of the scatter loop after the triples `P` have been processed:
offsets sit at block start plus processed count, and each block's settled
prefix holds exactly the processed `(src, prop)` pairs of its destination. -/
def scatterInv (bs : Nat → Nat) (E N : Nat) (P : List (Nat × Nat × Nat))
    (st : List Nat × List (Nat × Nat)) : Prop :=
  st.1.length = N ∧ st.2.length = E ∧
  (∀ d < N, st.1.getD d 0 = bs d + destCount P d) ∧
  (∀ d < N, ∀ i < destCount P d,
    st.2.getD (bs d + i) (0, 0) = (destGroup P d).getD i (0, 0))

theorem scatter_go (L : List (Nat × Nat × Nat)) (cList : List Nat) (N E : Nat)
    (hN : cList.length = N)
    (hcnt : ∀ d < N, cList.getD d 0 = destCount L d)
    (hsum : sumTake cList N ≤ E)
    (hd : ∀ tr ∈ L, tr.2.1 < N) :
    ∀ (S P : List (Nat × Nat × Nat)) (st : List Nat × List (Nat × Nat)),
      P ++ S = L → scatterInv (sumTake cList) E N P st →
      scatterInv (sumTake cList) E N L (S.foldl scatterStep st) := by
  intro S
  induction S with
  | nil =>
    intro P st hPS hinv
    rw [List.append_nil] at hPS
    subst hPS
    exact hinv
  | cons tr S' ih =>
    intro P st hPS hinv
    rw [List.foldl_cons]
    refine ih (P ++ [tr]) (scatterStep st tr)
      (by rw [List.append_assoc]; exact hPS) ?_
    obtain ⟨hlen1, hlen2, hoff, hout⟩ := hinv
    have htr : tr ∈ L := by
      rw [← hPS]
      exact List.mem_append_right P (List.mem_cons_self tr S')
    have hd₀ : tr.2.1 < N := hd tr htr
    have hcntlt : destCount P tr.2.1 < destCount L tr.2.1 := by
      rw [← hPS]
      simp only [destCount, List.countP_append, List.countP_cons]
      simp
    have hblock : ∀ d < N, sumTake cList d + destCount L d ≤ sumTake cList (d + 1) := by
      intro d hdN
      rw [sumTake_succ cList d (by omega), hcnt d hdN]
    have hwE : st.1.getD tr.2.1 0 < E := by
      rw [hoff tr.2.1 hd₀]
      have h1 := hblock tr.2.1 hd₀
      have h2 := sumTake_mono cList (show tr.2.1 + 1 ≤ N by omega)
      omega
    refine ⟨by simp [scatterStep, List.length_set, hlen1],
            by simp [scatterStep, List.length_set, hlen2], ?_, ?_⟩
    · intro d hdN
      simp only [scatterStep]
      by_cases hdd : tr.2.1 = d
      · subst hdd
        rw [getD_set_eq _ _ _ _ (by rw [hlen1]; exact hd₀)]
        rw [hoff tr.2.1 hd₀]
        simp only [destCount, List.countP_append, List.countP_cons,
          List.countP_nil]
        simp
        omega
      · rw [getD_set_ne _ _ _ _ _ hdd, hoff d hdN]
        simp only [destCount, List.countP_append, List.countP_cons,
          List.countP_nil]
        simp [hdd]
    · intro d hdN i hi
      have hgrow : destGroup (P ++ [tr]) d =
          destGroup P d ++
            (if tr.2.1 = d then [(tr.1, tr.2.2)] else []) := by
        simp only [destGroup, List.filter_append, List.map_append]
        by_cases hdd : tr.2.1 = d
        · simp [List.filter_cons, hdd]
        · simp [List.filter_cons, hdd]
      by_cases hdd : tr.2.1 = d
      · subst hdd
        have hcnt' : destCount (P ++ [tr]) tr.2.1 = destCount P tr.2.1 + 1 := by
          simp only [destCount, List.countP_append, List.countP_cons,
            List.countP_nil]
          simp
        rw [hcnt'] at hi
        by_cases hii : i < destCount P tr.2.1
        · have hne : st.1.getD tr.2.1 0 ≠ sumTake cList tr.2.1 + i := by
            rw [hoff tr.2.1 hd₀]
            omega
          simp only [scatterStep]
          rw [getD_set_ne _ _ _ _ _ hne, hout tr.2.1 hd₀ i hii, hgrow,
            if_pos rfl,
            List.getD_append _ _ _ i (by rw [destGroup_length]; exact hii)]
        · have hieq : i = destCount P tr.2.1 := by omega
          subst hieq
          have hpos : sumTake cList tr.2.1 + destCount P tr.2.1 =
              st.1.getD tr.2.1 0 := (hoff tr.2.1 hd₀).symm
          simp only [scatterStep]
          rw [hpos, getD_set_eq _ _ _ _ (by rw [hlen2]; exact hwE), hgrow,
            if_pos rfl,
            List.getD_append_right _ _ _ _
              (by rw [destGroup_length])]
          rw [destGroup_length]
          simp
      · have hcnt' : destCount (P ++ [tr]) d = destCount P d := by
          simp only [destCount, List.countP_append, List.countP_cons,
            List.countP_nil]
          simp [hdd]
        rw [hcnt'] at hi
        have hPle : destCount P d ≤ destCount L d := by
          rw [← hPS]; exact destCount_le_append _ _ _
        have hne : st.1.getD tr.2.1 0 ≠ sumTake cList d + i := by
          rw [hoff tr.2.1 hd₀]
          rcases Nat.lt_or_ge tr.2.1 d with hc | hc
          · have h1 := hblock tr.2.1 hd₀
            have h2 := sumTake_mono cList (show tr.2.1 + 1 ≤ d by omega)
            omega
          · have hdlt : d < tr.2.1 := by omega
            have h1 := hblock d hdN
            have h2 := sumTake_mono cList (show d + 1 ≤ tr.2.1 by omega)
            omega
        simp only [scatterStep]
        rw [getD_set_ne _ _ _ _ _ hne, hout d hdN i hi, hgrow, if_neg hdd,
          List.append_nil]

end Katana

namespace Katana

theorem getD_take {α : Type} (l : List α) (k i : Nat) (x : α) (h : i < k) :
    (l.take k).getD i x = l.getD i x := by
  by_cases hi : i < l.length
  · rw [List.getD_eq_getElem _ _ (by rw [List.length_take]; omega),
      List.getD_eq_getElem _ _ hi, List.getElem_take]
  · rw [List.getD_eq_default _ _ (by rw [List.length_take]; omega),
      List.getD_eq_default _ _ (by omega)]

theorem bump_sum (c : List Nat) : ∀ d, d < c.length →
    (bumpAt c d).sum = c.sum + 1 := by
  induction c with
  | nil => intro d hd; simp at hd
  | cons x xs ih =>
    intro d hd
    match d with
    | 0 => simp [bumpAt, List.set]; omega
    | m + 1 =>
      have : bumpAt (x :: xs) (m + 1) = x :: bumpAt xs m := by
        simp [bumpAt, List.set, List.getD_cons_succ]
      rw [this]
      simp only [List.sum_cons, ih m (by simpa using hd)]
      omega

theorem foldl_bump_sum (f : Nat → Nat) (l : List Nat) :
    ∀ c : List Nat, (∀ e ∈ l, f e < c.length) →
      (l.foldl (fun c e => bumpAt c (f e)) c).sum = c.sum + l.length := by
  induction l with
  | nil => intro c _; simp
  | cons e l ih =>
    intro c hc
    simp only [List.foldl_cons, List.length_cons]
    rw [ih (bumpAt c (f e)) (by
      intro e' he'
      simp only [bumpAt, List.length_set]
      exact hc e' (List.mem_cons_of_mem e he'))]
    rw [bump_sum c (f e) (hc e (List.mem_cons_self e l))]
    omega

theorem countP_flatMap_map {ι : Type} (LL : List ι) (f : ι → List Nat)
    (g : ι → Nat → Nat × Nat × Nat) (p : Nat × Nat × Nat → Bool) (q : Nat → Bool)
    (h : ∀ i e, p (g i e) = q e) :
    (LL.flatMap (fun i => (f i).map (g i))).countP p =
      (LL.flatMap f).countP q := by
  induction LL with
  | nil => rfl
  | cons i LL ih =>
    simp only [List.flatMap_cons, List.countP_append, List.countP_map, ih]
    congr 1
    apply List.countP_congr
    intro e _
    rw [Function.comp_apply, h i e]

theorem countP_range_getD (l : List Nat) (d : Nat) :
    (List.range l.length).countP (fun e => l.getD e 0 = d) = l.count d := by
  induction l with
  | nil => rfl
  | cons x xs ih =>
    simp only [List.length_cons, List.range_succ_eq_map, List.countP_cons,
      List.countP_map]
    have : (fun e => decide ((x :: xs).getD e 0 = d)) ∘ Nat.succ =
        fun e => decide (xs.getD e 0 = d) := by
      funext e
      simp [List.getD_cons_succ]
    rw [this, ih]
    simp only [List.getD_cons_zero, List.count_cons]
    by_cases hx : x = d
    · simp [hx]
    · simp [hx]

theorem exists_block (c : List Nat) :
    ∀ n e, e < sumTake c n →
      ∃ d, d < n ∧ sumTake c d ≤ e ∧ e < sumTake c (d + 1) := by
  intro n
  induction n with
  | zero =>
    intro e he
    simp [sumTake] at he
  | succ k ih =>
    intro e he
    by_cases hk : e < sumTake c k
    · obtain ⟨d, hd, h1, h2⟩ := ih e hk
      exact ⟨d, by omega, h1, h2⟩
    · exact ⟨k, by omega, by omega, he⟩

theorem triples_shape (t : GraphTopology) :
    ∀ tr ∈ t.triples, ∃ n e, n < t.numNodes ∧ e ∈ t.outEdges n ∧
      tr = (n, t.outEdgeDst e, t.getEdgePropIdx e) := by
  intro tr htr
  unfold GraphTopology.triples at htr
  rw [List.mem_flatMap] at htr
  obtain ⟨n, hn, htr⟩ := htr
  rw [List.mem_map] at htr
  obtain ⟨e, he, htr⟩ := htr
  exact ⟨n, e, List.mem_range.mp hn, he, htr.symm⟩

theorem outEdges_lt_numEdges (t : GraphTopology) (h : t.WF) {n e : Nat}
    (hn : n < t.numNodes) (he : e ∈ t.outEdges n) : e < t.numEdges := by
  unfold GraphTopology.outEdges at he
  rw [List.mem_range'_1] at he
  have := edgeEnd_le_numEdges t h hn
  have := edgeBeg_le_edgeEnd t h hn
  omega

theorem triples_dest_lt (t : GraphTopology) (h : t.WF) :
    ∀ tr ∈ t.triples, tr.2.1 < t.numNodes ∧ tr.1 < t.numNodes := by
  intro tr htr
  obtain ⟨n, e, hn, he, htr⟩ := triples_shape t tr htr
  subst htr
  refine ⟨h.2.2.1 e (outEdges_lt_numEdges t h hn he), hn⟩

theorem inCounts_length (t : GraphTopology) :
    (inCounts t).length = t.numNodes := by
  unfold inCounts
  rw [foldl_bump_length, List.length_replicate]

theorem inCounts_getD (t : GraphTopology) (h : t.WF) (d : Nat)
    (hd : d < t.numNodes) :
    (inCounts t).getD d 0 = destCount t.triples d := by
  unfold inCounts
  rw [foldl_bump_getD _ _ _ d (by rw [List.length_replicate]; exact hd)]
  rw [List.getD_eq_getElem _ _ (by rw [List.length_replicate]; exact hd)]
  simp only [List.getElem_replicate, Nat.zero_add]
  unfold destCount GraphTopology.triples
  rw [countP_flatMap_map _ _ _ _ (fun e => decide (t.outEdgeDst e = d))
    (by intro n e; simp)]
  rw [flatMap_outEdges_eq t h]

theorem inCounts_count (t : GraphTopology) (d : Nat) :
    (inCounts t).getD d 0 =
      (if d < t.numNodes then t.dests.count d else 0) := by
  by_cases hd : d < t.numNodes
  · rw [if_pos hd]
    unfold inCounts
    rw [foldl_bump_getD _ _ _ d (by rw [List.length_replicate]; exact hd)]
    rw [List.getD_eq_getElem _ _ (by rw [List.length_replicate]; exact hd)]
    simp only [List.getElem_replicate, Nat.zero_add]
    have : t.numEdges = t.dests.length := rfl
    rw [this]
    have : (fun e => decide (t.outEdgeDst e = d)) =
        fun e => decide (t.dests.getD e 0 = d) := by
      funext e
      rfl
    rw [this, countP_range_getD]
  · rw [if_neg hd]
    exact List.getD_eq_default _ _ (by rw [inCounts_length]; omega)

theorem inCounts_sum (t : GraphTopology) (h : t.WF) :
    (inCounts t).sum = t.numEdges := by
  unfold inCounts
  rw [foldl_bump_sum _ _ _ (by
    intro e he
    rw [List.length_replicate]
    exact h.2.2.1 e (List.mem_range.mp he))]
  simp

theorem sumTake_top (t : GraphTopology) (h : t.WF) :
    sumTake (inCounts t) t.numNodes = t.numEdges := by
  unfold sumTake
  rw [← inCounts_length t, List.take_length, inCounts_sum t h]

theorem scatter_init_inv (t : GraphTopology) (h : t.WF)
    (hN : t.numNodes ≠ 0) :
    scatterInv (sumTake (inCounts t)) t.numEdges t.numNodes []
      (0 :: (scanSum 0 (inCounts t)).take (t.numNodes - 1),
        List.replicate t.numEdges (0, 0)) := by
  refine ⟨?_, by simp, ?_, ?_⟩
  · simp only [List.length_cons, List.length_take, scanSum_length,
      inCounts_length]
    omega
  · intro d hd
    match d with
    | 0 =>
      simp [sumTake, destCount]
    | m + 1 =>
      rw [List.getD_cons_succ,
        getD_take _ _ _ _ (by omega),
        scanSum_getD _ _ _ (by rw [inCounts_length]; omega)]
      simp [destCount]
  · intro d hd i hi
    simp [destCount] at hi

theorem transpose_final_inv (t : GraphTopology) (h : t.WF)
    (hN : t.numNodes ≠ 0) :
    scatterInv (sumTake (inCounts t)) t.numEdges t.numNodes t.triples
      (t.triples.foldl scatterStep
        (0 :: (scanSum 0 (inCounts t)).take (t.numNodes - 1),
          List.replicate t.numEdges (0, 0))) := by
  exact scatter_go t.triples (inCounts t) t.numNodes t.numEdges
    (inCounts_length t)
    (fun d hd => inCounts_getD t h d hd)
    (le_of_eq (sumTake_top t h))
    (fun tr htr => (triples_dest_lt t h tr htr).1)
    t.triples [] _ rfl (scatter_init_inv t h hN)

end Katana

namespace Katana

theorem flatMap_filter_key_perm {α : Type} (key : α → Nat) :
    ∀ (L : List α) (N : Nat), (∀ x ∈ L, key x < N) →
      ((List.range N).flatMap
        (fun d => L.filter (fun x => key x = d))).Perm L := by
  intro L
  induction L with
  | nil =>
    intro N _
    suffices hh : ((List.range N).flatMap
        (fun d => List.filter (fun x => decide (key x = d)) ([] : List α))) = [] by
      rw [hh]
    simp
  | cons x l ih =>
    intro N hk
    have hx : key x < N := hk x (List.mem_cons_self x l)
    have hsplit : List.range N =
        List.range' 0 (key x) ++
          (key x :: List.range' (key x + 1) (N - key x - 1)) := by
      rw [List.range_eq_range']
      have h1 := List.range'_append 0 (key x) (N - key x) 1
      simp only [Nat.zero_add, Nat.one_mul] at h1
      conv_lhs => rw [show N = (N - key x) + key x from by omega]
      rw [← h1]
      congr 1
      conv_lhs => rw [show N - key x = (N - key x - 1) + 1 from by omega]
      rw [List.range'_succ]
    have hbx : ∀ d, key x ≠ d →
        List.filter (fun y => decide (key y = d)) (x :: l) =
          List.filter (fun y => decide (key y = d)) l := by
      intro d hd
      rw [List.filter_cons]
      simp [hd]
    have hbk : List.filter (fun y => decide (key y = key x)) (x :: l) =
        x :: List.filter (fun y => decide (key y = key x)) l := by
      rw [List.filter_cons]
      simp
    have hcongr1 : ∀ d ∈ List.range' 0 (key x),
        List.filter (fun y => decide (key y = d)) (x :: l) =
          List.filter (fun y => decide (key y = d)) l := by
      intro d hd
      rw [List.mem_range'_1] at hd
      exact hbx d (by omega)
    have hcongr2 : ∀ d ∈ List.range' (key x + 1) (N - key x - 1),
        List.filter (fun y => decide (key y = d)) (x :: l) =
          List.filter (fun y => decide (key y = d)) l := by
      intro d hd
      rw [List.mem_range'_1] at hd
      exact hbx d (by omega)
    rw [hsplit, List.flatMap_append, List.flatMap_cons,
      List.flatMap_congr hcongr1, List.flatMap_congr hcongr2, hbk,
      List.cons_append]
    refine List.Perm.trans List.perm_middle (List.Perm.cons x ?_)
    have hrw : (List.range' 0 (key x)).flatMap
          (fun d => List.filter (fun y => decide (key y = d)) l) ++
        (List.filter (fun y => decide (key y = key x)) l ++
          (List.range' (key x + 1) (N - key x - 1)).flatMap
            (fun d => List.filter (fun y => decide (key y = d)) l)) =
        (List.range N).flatMap
          (fun d => List.filter (fun y => decide (key y = d)) l) := by
      rw [hsplit, List.flatMap_append, List.flatMap_cons]
    rw [hrw]
    exact ih N (fun y hy => hk y (List.mem_cons_of_mem x hy))

theorem transpose_triples_perm (t : GraphTopology) (h : t.WF) :
    ((transposeOf t).toGraphTopology.triples).Perm
      (t.triples.map swapTriple) := by
  by_cases hN : t.numNodes = 0
  · have h1 : (transposeOf t).toGraphTopology.triples = [] := by
      unfold transposeOf
      rw [if_pos hN]
      rfl
    have h2 : t.triples = [] := by
      unfold GraphTopology.triples
      rw [hN]
      rfl
    rw [h1, h2]
    exact List.Perm.refl _
  · obtain ⟨hlen1, hlen2, hoff, hout⟩ := transpose_final_inv t h hN
    have hadj : (transposeOf t).toGraphTopology.adj_indices =
        scanSum 0 (inCounts t) := by
      unfold transposeOf
      rw [if_neg hN]
    have hdests : (transposeOf t).toGraphTopology.dests =
        (t.triples.foldl scatterStep
          (0 :: (scanSum 0 (inCounts t)).take (t.numNodes - 1),
            List.replicate t.numEdges (0, 0))).2.map Prod.fst := by
      unfold transposeOf
      rw [if_neg hN]
    have hprops : (transposeOf t).toGraphTopology.edge_prop_indices =
        (t.triples.foldl scatterStep
          (0 :: (scanSum 0 (inCounts t)).take (t.numNodes - 1),
            List.replicate t.numEdges (0, 0))).2.map Prod.snd := by
      unfold transposeOf
      rw [if_neg hN]
    have hNN : (transposeOf t).toGraphTopology.numNodes = t.numNodes := by
      show (transposeOf t).toGraphTopology.adj_indices.length = t.numNodes
      rw [hadj, scanSum_length, inCounts_length]
    have hbs : ∀ n, n < t.numNodes →
        (transposeOf t).toGraphTopology.edgeBeg n = sumTake (inCounts t) n := by
      intro n hn
      unfold GraphTopology.edgeBeg
      match n with
      | 0 => simp [sumTake]
      | m + 1 =>
        rw [if_neg (by omega), hadj,
          scanSum_getD _ _ _ (by rw [inCounts_length]; omega)]
        simp only [Nat.add_sub_cancel, Nat.zero_add]
    have hbe : ∀ n, n < t.numNodes →
        (transposeOf t).toGraphTopology.edgeEnd n =
          sumTake (inCounts t) n + destCount t.triples n := by
      intro n hn
      unfold GraphTopology.edgeEnd
      rw [hadj, scanSum_getD _ _ _ (by rw [inCounts_length]; exact hn),
        sumTake_succ _ _ (by rw [inCounts_length]; exact hn),
        inCounts_getD t h n hn]
      omega
    have hblockE : ∀ n, n < t.numNodes →
        sumTake (inCounts t) n + destCount t.triples n ≤ t.numEdges := by
      intro n hn
      rw [← inCounts_getD t h n hn,
        ← sumTake_succ _ _ (by rw [inCounts_length]; exact hn),
        ← sumTake_top t h]
      exact sumTake_mono _ (by omega)
    have hblock : ∀ n, n < t.numNodes →
        ((transposeOf t).toGraphTopology.outEdges n).map
          (fun e => (n, (transposeOf t).toGraphTopology.outEdgeDst e,
            (transposeOf t).toGraphTopology.getEdgePropIdx e)) =
        (t.triples.filter (fun tr => tr.2.1 = n)).map swapTriple := by
      intro n hn
      have houtE : (transposeOf t).toGraphTopology.outEdges n =
          List.range' (sumTake (inCounts t) n) (destCount t.triples n) := by
        unfold GraphTopology.outEdges
        rw [hbs n hn, hbe n hn]
        congr 1
        omega
      apply List.ext_getElem
      · simp only [houtE, List.length_map, List.length_range',
          destCount, List.countP_eq_length_filter]
      · intro i h₁ h₂
        simp only [List.length_map, houtE, List.length_range'] at h₁
        have hi : i < destCount t.triples n := h₁
        have hpos : sumTake (inCounts t) n + i < t.numEdges := by
          have := hblockE n hn
          omega
        have hilen : i < ((transposeOf t).toGraphTopology.outEdges n).length := by
          rw [houtE, List.length_range']; exact hi
        have hgetE : ((transposeOf t).toGraphTopology.outEdges n)[i] =
            sumTake (inCounts t) n + i := by
          simp [houtE, List.getElem_range']
        rw [List.getElem_map, List.getElem_map, hgetE]
        have hfl : i < (t.triples.filter (fun tr => tr.2.1 = n)).length := by
          rw [← List.countP_eq_length_filter]
          exact hi
        have hmemf : (t.triples.filter (fun tr => tr.2.1 = n))[i] ∈
            t.triples.filter (fun tr => tr.2.1 = n) := List.getElem_mem hfl
        have hdeq : ((t.triples.filter (fun tr => tr.2.1 = n))[i]).2.1 = n := by
          have := (List.mem_filter.mp hmemf).2
          simpa using this
        have hgroup : (destGroup t.triples n).getD i (0, 0) =
            (((t.triples.filter (fun tr => tr.2.1 = n))[i]).1,
              ((t.triples.filter (fun tr => tr.2.1 = n))[i]).2.2) := by
          unfold destGroup
          rw [getD_map _ _ i ((0 : Nat), (0 : Nat), (0 : Nat)) _ hfl,
            List.getD_eq_getElem _ _ hfl]
        have hslot := hout n hn i hi
        rw [hgroup] at hslot
        have hdst : (transposeOf t).toGraphTopology.outEdgeDst
            (sumTake (inCounts t) n + i) =
            ((t.triples.filter (fun tr => tr.2.1 = n))[i]).1 := by
          unfold GraphTopology.outEdgeDst
          rw [hdests,
            getD_map _ _ _ ((0 : Nat), (0 : Nat)) _ (by rw [hlen2]; exact hpos),
            hslot]
        have hprop : (transposeOf t).toGraphTopology.getEdgePropIdx
            (sumTake (inCounts t) n + i) =
            ((t.triples.filter (fun tr => tr.2.1 = n))[i]).2.2 := by
          unfold GraphTopology.getEdgePropIdx
          rw [hprops]
          rw [if_neg (by
            intro hnil
            have := congrArg List.length hnil
            rw [List.length_map, hlen2] at this
            simp at this
            omega)]
          rw [getD_map _ _ _ ((0 : Nat), (0 : Nat)) _ (by rw [hlen2]; exact hpos),
            hslot]
        rw [hdst, hprop]
        unfold swapTriple
        rw [hdeq]
    have htr' : (transposeOf t).toGraphTopology.triples =
        (List.range t.numNodes).flatMap
          (fun n => ((transposeOf t).toGraphTopology.outEdges n).map
            (fun e => (n, (transposeOf t).toGraphTopology.outEdgeDst e,
              (transposeOf t).toGraphTopology.getEdgePropIdx e))) := by
      conv_lhs => unfold GraphTopology.triples
      rw [hNN]
    have hcongr : ∀ n ∈ List.range t.numNodes,
        ((transposeOf t).toGraphTopology.outEdges n).map
          (fun e => (n, (transposeOf t).toGraphTopology.outEdgeDst e,
            (transposeOf t).toGraphTopology.getEdgePropIdx e)) =
        (t.triples.filter (fun tr => tr.2.1 = n)).map swapTriple := by
      intro n hn
      exact hblock n (List.mem_range.mp hn)
    rw [htr', List.flatMap_congr hcongr, ← List.map_flatMap]
    exact List.Perm.map swapTriple
      (flatMap_filter_key_perm (fun tr => tr.2.1) t.triples t.numNodes
        (fun tr htr => (triples_dest_lt t h tr htr).1))

end Katana

namespace Katana

theorem transposeOf_WF (t : GraphTopology) (h : t.WF) :
    (transposeOf t).toGraphTopology.WF := by
  by_cases hN : t.numNodes = 0
  · unfold transposeOf
    rw [if_pos hN]
    decide
  · obtain ⟨hlen1, hlen2, hoff, hout⟩ := transpose_final_inv t h hN
    have hadj : (transposeOf t).toGraphTopology.adj_indices =
        scanSum 0 (inCounts t) := by
      unfold transposeOf
      rw [if_neg hN]
    have hdests : (transposeOf t).toGraphTopology.dests =
        (t.triples.foldl scatterStep
          (0 :: (scanSum 0 (inCounts t)).take (t.numNodes - 1),
            List.replicate t.numEdges (0, 0))).2.map Prod.fst := by
      unfold transposeOf
      rw [if_neg hN]
    have hprops : (transposeOf t).toGraphTopology.edge_prop_indices =
        (t.triples.foldl scatterStep
          (0 :: (scanSum 0 (inCounts t)).take (t.numNodes - 1),
            List.replicate t.numEdges (0, 0))).2.map Prod.snd := by
      unfold transposeOf
      rw [if_neg hN]
    have hNN : (transposeOf t).toGraphTopology.numNodes = t.numNodes := by
      show (transposeOf t).toGraphTopology.adj_indices.length = t.numNodes
      rw [hadj, scanSum_length, inCounts_length]
    have hE' : (transposeOf t).toGraphTopology.numEdges = t.numEdges := by
      show (transposeOf t).toGraphTopology.dests.length = t.numEdges
      rw [hdests, List.length_map, hlen2]
    refine ⟨?_, ?_, ?_, ?_, ?_⟩
    · intro i hi hi1
      rw [hNN] at hi hi1
      rw [hadj,
        scanSum_getD _ _ _ (by rw [inCounts_length]; omega),
        scanSum_getD _ _ _ (by rw [inCounts_length]; omega)]
      have := sumTake_mono (inCounts t) (show i + 1 ≤ i + 1 + 1 by omega)
      omega
    · rw [hNN, hE', if_neg hN, hadj,
        scanSum_getD _ _ _ (by rw [inCounts_length]; omega),
        show t.numNodes - 1 + 1 = t.numNodes from by omega, sumTake_top t h]
      omega
    · intro e he
      rw [hE'] at he
      rw [hNN]
      have heS : e < sumTake (inCounts t) t.numNodes := by
        rw [sumTake_top t h]
        exact he
      obtain ⟨d, hdN, hle, hlt⟩ := exists_block (inCounts t) t.numNodes e heS
      have hdc : sumTake (inCounts t) (d + 1) =
          sumTake (inCounts t) d + destCount t.triples d := by
        rw [sumTake_succ _ _ (by rw [inCounts_length]; omega),
          inCounts_getD t h d hdN]
      have hi : e - sumTake (inCounts t) d < destCount t.triples d := by omega
      have hslot := hout d hdN (e - sumTake (inCounts t) d) hi
      rw [show sumTake (inCounts t) d + (e - sumTake (inCounts t) d) = e
        from by omega] at hslot
      show (transposeOf t).toGraphTopology.dests.getD e 0 < t.numNodes
      rw [hdests,
        getD_map _ _ _ ((0 : Nat), (0 : Nat)) _ (by rw [hlen2]; exact he),
        hslot]
      have hfl : e - sumTake (inCounts t) d <
          (t.triples.filter (fun tr => tr.2.1 = d)).length := by
        rw [← List.countP_eq_length_filter]
        exact hi
      unfold destGroup
      rw [getD_map _ _ _ ((0 : Nat), (0 : Nat), (0 : Nat)) _ hfl,
        List.getD_eq_getElem _ _ hfl]
      have hmemf := List.getElem_mem hfl
      have hmemL : (t.triples.filter
          (fun tr => tr.2.1 = d))[e - sumTake (inCounts t) d] ∈ t.triples :=
        (List.mem_filter.mp hmemf).1
      exact (triples_dest_lt t h _ hmemL).2
    · refine Or.inr ?_
      show (transposeOf t).toGraphTopology.edge_prop_indices.length = _
      rw [hprops, List.length_map, hlen2, hE']
    · refine Or.inl ?_
      unfold transposeOf
      rw [if_neg hN]

end Katana

/-- C4: transposition involution.  For every well-formed base topology,
transposing twice yields a graph-equivalent topology: the multiset of
`(src, dst, edge-property-index)` triples of
`MakeTransposeCopy(MakeTransposeCopy(t))` equals that of `t` (row order may
differ); and the transposed view's `adj_indices` is exactly the inclusive
prefix sum of the per-node in-degree counts of the original. -/
theorem C4_transpose_involution (t : Katana.GraphTopology) (h : t.WF) :
    (Multiset.ofList ((Katana.transposeOf
        (Katana.transposeOf t).toGraphTopology).toGraphTopology.triples) =
      Multiset.ofList t.triples) ∧
    (Katana.transposeOf t).adj_indices =
      Katana.scanSum 0
        ((List.range t.numNodes).map (fun n => t.dests.count n)) := by
  constructor
  · have h1 := Katana.transpose_triples_perm t h
    have h2 := Katana.transpose_triples_perm
      (Katana.transposeOf t).toGraphTopology (Katana.transposeOf_WF t h)
    rw [Multiset.coe_eq_coe]
    refine h2.trans ?_
    refine (h1.map Katana.swapTriple).trans ?_
    rw [List.map_map]
    have hid : Katana.swapTriple ∘ Katana.swapTriple = id := by
      funext tr
      rfl
    rw [hid, List.map_id]
  · by_cases hN : t.numNodes = 0
    · unfold Katana.transposeOf
      rw [if_pos hN, hN]
      rfl
    · have hadj : (Katana.transposeOf t).adj_indices =
          Katana.scanSum 0 (Katana.inCounts t) := by
        unfold Katana.transposeOf
        rw [if_neg hN]
      rw [hadj]
      congr 1
      apply List.ext_getElem
      · rw [Katana.inCounts_length, List.length_map, List.length_range]
      · intro i h1 h2
        rw [Katana.inCounts_length] at h1
        rw [List.getElem_map, List.getElem_range,
          ← List.getD_eq_getElem (Katana.inCounts t) 0 (by
            rw [Katana.inCounts_length]; exact h1),
          Katana.inCounts_count t i, if_pos h1]

/-- Witness for `C4_transpose_involution` on the spec's S2 example:
`adj_indices = [2, 2, 3, 5]`, `dests = [1, 2, 3, 0, 2]`. -/
theorem C4_transpose_involution_witness :
    (Katana.GraphTopology.WF
      { adj_indices := [2, 2, 3, 5], dests := [1, 2, 3, 0, 2],
        edge_prop_indices := [], node_prop_indices := [] }) ∧
    (Katana.transposeOf
      { adj_indices := [2, 2, 3, 5], dests := [1, 2, 3, 0, 2],
        edge_prop_indices := [], node_prop_indices := [] }).adj_indices =
      Katana.scanSum 0
        ((List.range 4).map
          (fun n => [1, 2, 3, 0, 2].count n)) := by
  refine ⟨by decide, ?_⟩
  exact (C4_transpose_involution
    { adj_indices := [2, 2, 3, 5], dests := [1, 2, 3, 0, 2],
      edge_prop_indices := [], node_prop_indices := [] } (by decide)).2

namespace Katana

/-- Inner loop of `CreatePerEdgeTypeAdjacencyIndex` (GraphTopology.cpp:584-606)
for one node, producing the type-boundary entries for slots `idx .. T-1`:
walk the node's edges in order; while the current edge's type differs from
`GetType(index)`, record the current edge id as the boundary of `index` and
advance `index`; after the walk, fill the remaining slots with the node's
one-past-last edge id.  (The debug assertion `index < num_unique_types`
corresponds to the `idx < types.length` guard; when it would fail the C++
walks out of bounds, the model stops.) -/
def rowGo (types : List Nat) (tyE : Nat → Nat) (eend : Nat) :
    List Nat → Nat → List Nat
  | [], idx => List.replicate (types.length - idx) eend
  | e :: rest, idx =>
    if idx < types.length then
      if types.getD idx 0 = tyE e then rowGo types tyE eend rest idx
      else e :: rowGo types tyE eend (e :: rest) (idx + 1)
    else []
termination_by edges idx => (edges.length, types.length - idx)
decreasing_by
  · simp_wf
    omega
  · simp_wf
    omega

/-- `EdgeTypeAwareTopology::CreatePerEdgeTypeAdjacencyIndex`
(GraphTopology.cpp:563-609): the dense `N*T` table, row per node; `tyProp` is
the property graph's `GetTypeOfEdgeFromPropertyIndex` and the edge's type is
looked up through the shuffle view's property back-index. -/
def createPerEdgeTypeAdjacencyIndex (tyProp : Nat → Nat) (types : List Nat)
    (t : EdgeShuffleTopology) : List Nat :=
  if t.numNodes = 0 then []
  else if types.length = 0 then []
  else
    (List.range t.numNodes).flatMap
      (fun n => rowGo types
        (fun e => tyProp (t.toGraphTopology.getEdgePropIdx e))
        (t.edgeEnd n) (t.toGraphTopology.outEdges n) 0)

/-- Modelled from the spec: the header defining `out_edges(n, t)` is not under
`src/`; §3 gives the invariant "edges of node `n` with type index `t` occupy
`[per_type_adj[n*T + t-1] .. per_type_adj[n*T + t])`, with the base of node
`n` for `t == 0`"; this returns that half-open pair. -/
def outEdgesByType (adjPT : List Nat) (T : Nat) (t : EdgeShuffleTopology)
    (n ty : Nat) : Nat × Nat :=
  (if ty = 0 then t.edgeBeg n else adjPT.getD (n * T + (ty - 1)) 0,
    adjPT.getD (n * T + ty) 0)

theorem rowGo_eq (types : List Nat) (tyE : Nat → Nat) (eend : Nat)
    (hsorted : List.Pairwise (· < ·) types) :
    ∀ (k : Nat) (edges : List Nat) (idx : Nat),
      edges.length + (types.length - idx) ≤ k →
      idx ≤ types.length →
      (∀ e ∈ edges, tyE e ∈ types) →
      (∀ e ∈ edges, idx ≤ List.indexOf (tyE e) types) →
      List.Pairwise
        (fun a b => List.indexOf (tyE a) types ≤ List.indexOf (tyE b) types)
        edges →
      rowGo types tyE eend edges idx =
        (List.range' idx (types.length - idx)).map
          (fun v => (edges.find?
            (fun e => v < List.indexOf (tyE e) types)).getD eend) := by
  have hnodup : types.Nodup := hsorted.nodup
  intro k
  induction k with
  | zero =>
    intro edges idx hk hidx hin hlb hpw
    have h1 : edges = [] := List.eq_nil_of_length_eq_zero (by omega)
    have h2 : types.length - idx = 0 := by omega
    subst h1
    rw [rowGo, h2]
    rfl
  | succ k ih =>
    intro edges idx hk hidx hin hlb hpw
    match edges with
    | [] =>
      rw [rowGo]
      have : ∀ v ∈ List.range' idx (types.length - idx),
          ((List.find? (fun e => decide (v < List.indexOf (tyE e) types))
            []).getD eend) = eend := by
        intro v _
        rfl
      rw [List.map_congr_left this]
      rw [List.map_const']
      rw [List.length_range']
    | e :: rest =>
      have hmeme : tyE e ∈ types := hin e (List.mem_cons_self e rest)
      have hgeLt : List.indexOf (tyE e) types < types.length :=
        List.indexOf_lt_length.mpr hmeme
      have hidxlt : idx < types.length := by
        have := hlb e (List.mem_cons_self e rest)
        omega
      rw [rowGo, if_pos hidxlt]
      by_cases hguard : types.getD idx 0 = tyE e
      · have hge : List.indexOf (tyE e) types = idx := by
          have h1 : types.getD idx 0 = types.get ⟨idx, hidxlt⟩ := by
            rw [List.getD_eq_getElem _ _ hidxlt]
            rfl
          have h2 := List.indexOf_getElem hnodup idx hidxlt
          rw [← h2]
          congr 1
          rw [← hguard, h1]
          rfl
        rw [if_pos hguard]
        have hlb' : ∀ e' ∈ rest, idx ≤ List.indexOf (tyE e') types := by
          intro e' he'
          have := (List.pairwise_cons.mp hpw).1 e' he'
          omega
        rw [ih rest idx (by simp at hk ⊢; omega) hidx
          (fun e' he' => hin e' (List.mem_cons_of_mem e he'))
          hlb' (List.pairwise_cons.mp hpw).2]
        apply List.map_congr_left
        intro v hv
        rw [List.mem_range'_1] at hv
        rw [List.find?_cons_of_neg _ (by
          simp only [decide_eq_true_eq, Nat.not_lt, hge]
          omega)]
      · have hgt : idx < List.indexOf (tyE e) types := by
          have hge := hlb e (List.mem_cons_self e rest)
          rcases Nat.eq_or_lt_of_le hge with heq | hlt
          · exfalso
            apply hguard
            subst heq
            rw [List.getD_eq_getElem _ _ hgeLt]
            exact List.getElem_indexOf hgeLt
          · exact hlt
        rw [if_neg hguard]
        have hlb' : ∀ e' ∈ e :: rest, idx + 1 ≤ List.indexOf (tyE e') types := by
          intro e' he'
          rcases List.mem_cons.mp he' with he' | he'
          · subst he'
            omega
          · have := (List.pairwise_cons.mp hpw).1 e' he'
            omega
        rw [ih (e :: rest) (idx + 1) (by simp at hk ⊢; omega) (by omega)
          hin hlb' hpw]
        have hsplit : List.range' idx (types.length - idx) =
            idx :: List.range' (idx + 1) (types.length - (idx + 1)) := by
          rw [show types.length - idx = (types.length - (idx + 1)) + 1
            from by omega, List.range'_succ]
        rw [hsplit, List.map_cons]
        congr 1
        rw [List.find?_cons_of_pos _ (by
          simp only [decide_eq_true_eq]
          omega)]
        rfl

end Katana

namespace Katana

theorem find?_range'_getD (g : Nat → Nat) (v : Nat) :
    ∀ (len b : Nat),
      List.Pairwise (fun a b => g a ≤ g b) (List.range' b len) →
      ((List.range' b len).find? (fun e => v < g e)).getD (b + len) =
        b + (List.range' b len).countP (fun e => g e ≤ v) := by
  intro len
  induction len with
  | zero =>
    intro b _
    simp
  | succ len ih =>
    intro b hpw
    rw [List.range'_succ] at hpw ⊢
    obtain ⟨hhead, htail⟩ := List.pairwise_cons.mp hpw
    by_cases hb : v < g b
    · rw [List.find?_cons_of_pos _ (by simp only [decide_eq_true_eq]; exact hb)]
      have hz : (List.range' (b + 1) len).countP (fun e => g e ≤ v) = 0 := by
        rw [List.countP_eq_zero]
        intro a ha
        simp only [decide_eq_true_eq]
        have := hhead a ha
        omega
      rw [List.countP_cons, hz]
      simp only [decide_eq_true_eq]
      rw [if_neg (by omega)]
      rfl
    · rw [List.find?_cons_of_neg _ (by simp only [decide_eq_true_eq]; omega)]
      have := ih (b + 1) htail
      rw [show b + 1 + len = b + (len + 1) from by omega] at this
      rw [this, List.countP_cons]
      simp only [decide_eq_true_eq]
      rw [if_pos (by omega)]
      omega

theorem countP_window (g : Nat → Nat) (v : Nat) :
    ∀ (len b : Nat),
      List.Pairwise (fun a b => g a ≤ g b) (List.range' b len) →
      ∀ i, i < len →
        (g (b + i) ≤ v ↔
          i < (List.range' b len).countP (fun e => g e ≤ v)) := by
  intro len
  induction len with
  | zero =>
    intro b _ i hi
    omega
  | succ len ih =>
    intro b hpw i hi
    rw [List.range'_succ] at hpw ⊢
    obtain ⟨hhead, htail⟩ := List.pairwise_cons.mp hpw
    rw [List.countP_cons]
    simp only [decide_eq_true_eq]
    match i with
    | 0 =>
      simp only [Nat.add_zero]
      by_cases hb : g b ≤ v
      · rw [if_pos hb]
        omega
      · rw [if_neg hb]
        have hz : (List.range' (b + 1) len).countP (fun e => g e ≤ v) = 0 := by
          rw [List.countP_eq_zero]
          intro a ha
          simp only [decide_eq_true_eq]
          have := hhead a ha
          omega
        rw [hz]
        omega
    | j + 1 =>
      have hj : j < len := by omega
      have hIH := ih (b + 1) htail j hj
      rw [show b + (j + 1) = b + 1 + j from by omega]
      by_cases hb : g b ≤ v
      · rw [if_pos hb]
        omega
      · rw [if_neg hb]
        have hgj : g b ≤ g (b + 1 + j) :=
          hhead (b + 1 + j) (by rw [List.mem_range'_1]; omega)
        have hz : (List.range' (b + 1) len).countP (fun e => g e ≤ v) = 0 := by
          rw [List.countP_eq_zero]
          intro a ha
          simp only [decide_eq_true_eq]
          have := hhead a ha
          omega
        rw [hz]
        omega

theorem indexOf_mono_of_sorted (types : List Nat)
    (hsorted : List.Pairwise (· < ·) types) {x y : Nat}
    (hx : x ∈ types) (hy : y ∈ types) (hxy : x ≤ y) :
    List.indexOf x types ≤ List.indexOf y types := by
  by_contra hc
  have hxl := List.indexOf_lt_length.mpr hx
  have hyl := List.indexOf_lt_length.mpr hy
  have := List.pairwise_iff_getElem.mp hsorted
    (List.indexOf y types) (List.indexOf x types) hyl hxl (by omega)
  rw [List.getElem_indexOf hxl, List.getElem_indexOf hyl] at this
  omega

theorem flatMap_fixed_len_getD {α : Type} (f : α → List Nat) (T : Nat) :
    ∀ (ns : List α), (∀ a ∈ ns, (f a).length = T) →
      ∀ j k, k < T → ∀ hj : j < ns.length,
        (ns.flatMap f).getD (j * T + k) 0 = (f (ns.get ⟨j, hj⟩)).getD k 0 := by
  intro ns
  induction ns with
  | nil =>
    intro _ j k _ hj
    simp at hj
  | cons a ns ih =>
    intro hlen j k hk hj
    rw [List.flatMap_cons]
    match j with
    | 0 =>
      simp only [Nat.zero_mul, Nat.zero_add]
      rw [List.getD_append _ _ _ _ (by
        rw [hlen a (List.mem_cons_self a ns)]
        exact hk)]
      rfl
    | m + 1 =>
      rw [List.getD_append_right _ _ _ _ (by
        rw [hlen a (List.mem_cons_self a ns)]
        calc T ≤ (m + 1) * T := by
              have : 1 * T ≤ (m + 1) * T := Nat.mul_le_mul_right T (by omega)
              omega
          _ ≤ (m + 1) * T + k := by omega)]
      rw [hlen a (List.mem_cons_self a ns)]
      rw [show (m + 1) * T + k - T = m * T + k from by
        have : (m + 1) * T = m * T + T := by ring
        omega]
      exact ih (fun b hb => hlen b (List.mem_cons_of_mem a hb)) m k hk
        (by simpa using hj)

end Katana

namespace Katana

/-- Condensed type index of an edge of the shuffle view: position of
`GetTypeOfEdgeFromPropertyIndex(GetEdgePropertyIndexFromOutEdge(e))` in the
condensed `index -> type` vector. -/
def tyIdxOf (tyProp : Nat → Nat) (types : List Nat)
    (t : EdgeShuffleTopology) (e : Nat) : Nat :=
  typeToIndex types (tyProp (t.toGraphTopology.getEdgePropIdx e))

/-- Half-open per-type edge range of `(n, ty)` read from the table built by
`CreatePerEdgeTypeAdjacencyIndex`. -/
def typeRange (tyProp : Nat → Nat) (types : List Nat)
    (t : EdgeShuffleTopology) (n ty : Nat) : Nat × Nat :=
  outEdgesByType (createPerEdgeTypeAdjacencyIndex tyProp types t)
    types.length t n ty

theorem typeRange_val (tyProp : Nat → Nat) (types : List Nat)
    (t : EdgeShuffleTopology) (hwf : t.WFS)
    (hsorted : List.Pairwise (· < ·) types)
    (hpresent : ∀ e < t.numEdges,
      tyProp (t.toGraphTopology.getEdgePropIdx e) ∈ types)
    (hbytype : ∀ n < t.numNodes,
      List.Pairwise (fun a b => tyProp (t.toGraphTopology.getEdgePropIdx a) ≤
        tyProp (t.toGraphTopology.getEdgePropIdx b))
        (t.toGraphTopology.outEdges n)) :
    ∀ n < t.numNodes, ∀ k < types.length,
      (createPerEdgeTypeAdjacencyIndex tyProp types t).getD
          (n * types.length + k) 0 =
        t.edgeBeg n + (t.toGraphTopology.outEdges n).countP
          (fun e => tyIdxOf tyProp types t e ≤ k) := by
  intro n hn k hk
  have hN0 : ¬ t.numNodes = 0 := by omega
  have hT0 : ¬ types.length = 0 := by omega
  have hmono : ∀ m, m < t.numNodes →
      List.Pairwise (fun a b => tyIdxOf tyProp types t a ≤ tyIdxOf tyProp types t b)
        (t.toGraphTopology.outEdges m) := by
    intro m hm
    refine List.Pairwise.imp_of_mem ?_ (hbytype m hm)
    intro a b ha hb hab
    unfold tyIdxOf typeToIndex
    exact indexOf_mono_of_sorted types hsorted
      (hpresent a (outEdges_lt_numEdges t.toGraphTopology hwf.1 hm ha))
      (hpresent b (outEdges_lt_numEdges t.toGraphTopology hwf.1 hm hb))
      hab
  have hrow : ∀ m, m < t.numNodes →
      rowGo types (fun e => tyProp (t.toGraphTopology.getEdgePropIdx e))
        (t.edgeEnd m) (t.toGraphTopology.outEdges m) 0 =
      (List.range' 0 types.length).map
        (fun v => ((t.toGraphTopology.outEdges m).find?
          (fun e => v < tyIdxOf tyProp types t e)).getD (t.edgeEnd m)) := by
    intro m hm
    have := rowGo_eq types
      (fun e => tyProp (t.toGraphTopology.getEdgePropIdx e))
      (t.edgeEnd m) hsorted
      ((t.toGraphTopology.outEdges m).length + types.length)
      (t.toGraphTopology.outEdges m) 0
      (by omega) (by omega)
      (fun e he => hpresent e (outEdges_lt_numEdges t.toGraphTopology hwf.1 hm he))
      (fun e _ => Nat.zero_le _)
      (hmono m hm)
    rw [Nat.sub_zero] at this
    exact this
  have hrowlen : ∀ m ∈ List.range t.numNodes,
      (rowGo types (fun e => tyProp (t.toGraphTopology.getEdgePropIdx e))
        (t.edgeEnd m) (t.toGraphTopology.outEdges m) 0).length = types.length := by
    intro m hm
    rw [hrow m (List.mem_range.mp hm), List.length_map, List.length_range']
  have hadjdef : createPerEdgeTypeAdjacencyIndex tyProp types t =
      (List.range t.numNodes).flatMap
        (fun m => rowGo types
          (fun e => tyProp (t.toGraphTopology.getEdgePropIdx e))
          (t.edgeEnd m) (t.toGraphTopology.outEdges m) 0) := by
    unfold createPerEdgeTypeAdjacencyIndex
    rw [if_neg hN0, if_neg hT0]
  rw [hadjdef,
    flatMap_fixed_len_getD _ types.length (List.range t.numNodes) hrowlen
      n k hk (by rw [List.length_range]; exact hn)]
  have hget : (List.range t.numNodes).get
      ⟨n, by rw [List.length_range]; exact hn⟩ = n := by
    simp
  rw [hget, hrow n hn,
    getD_map _ _ _ 0 _ (by rw [List.length_range']; exact hk)]
  have hinner : (List.range' 0 types.length).getD k 0 = k := by
    rw [List.getD_eq_getElem _ _ (by rw [List.length_range']; exact hk)]
    simp [List.getElem_range']
  rw [hinner]
  have hbe : t.edgeBeg n + (t.edgeEnd n - t.edgeBeg n) = t.edgeEnd n := by
    have := edgeBeg_le_edgeEnd t.toGraphTopology hwf.1 hn
    omega
  have := find?_range'_getD (tyIdxOf tyProp types t) k
    (t.edgeEnd n - t.edgeBeg n) (t.edgeBeg n) (hmono n hn)
  rw [hbe] at this
  exact this

end Katana

/-- C3: edge-type-aware adjacency correctness.  For a well-formed edge-shuffle
view whose per-node edges are sorted by edge type, with a condensed type map
(ascending, duplicate-free, covering every edge type present), the per-type
adjacency table built by `CreatePerEdgeTypeAdjacencyIndex` is correct: for
every node `n` and type index `ty < T`, the half-open range `out_edges(n, ty)`
contains exactly the out-edges of `n` whose condensed type index is `ty`;
ranges of distinct type indices are disjoint; and their union over
`ty ∈ [0, T)` is exactly `out_edges(n)`. -/
theorem C3_edge_type_adjacency (tyProp : Nat → Nat) (types : List Nat)
    (t : Katana.EdgeShuffleTopology) (hwf : t.WFS)
    (hsorted : List.Pairwise (· < ·) types)
    (hpresent : ∀ e < t.numEdges,
      tyProp (t.toGraphTopology.getEdgePropIdx e) ∈ types)
    (hbytype : ∀ n < t.numNodes,
      List.Pairwise (fun a b => tyProp (t.toGraphTopology.getEdgePropIdx a) ≤
        tyProp (t.toGraphTopology.getEdgePropIdx b))
        (t.toGraphTopology.outEdges n)) :
    ∀ n < t.numNodes, ∀ ty < types.length,
      (∀ e,
        ((Katana.typeRange tyProp types t n ty).1 ≤ e ∧
          e < (Katana.typeRange tyProp types t n ty).2) ↔
        (e ∈ t.toGraphTopology.outEdges n ∧
          Katana.tyIdxOf tyProp types t e = ty)) ∧
      (∀ ty2 < types.length, ty ≠ ty2 → ∀ e,
        ¬(((Katana.typeRange tyProp types t n ty).1 ≤ e ∧
            e < (Katana.typeRange tyProp types t n ty).2) ∧
          ((Katana.typeRange tyProp types t n ty2).1 ≤ e ∧
            e < (Katana.typeRange tyProp types t n ty2).2))) ∧
      (∀ e, e ∈ t.toGraphTopology.outEdges n ↔
        ∃ ty2, ty2 < types.length ∧
          (Katana.typeRange tyProp types t n ty2).1 ≤ e ∧
          e < (Katana.typeRange tyProp types t n ty2).2) := by
  intro n hn ty hty
  have hval := Katana.typeRange_val tyProp types t hwf hsorted hpresent hbytype n hn
  have hmono : List.Pairwise
      (fun a b => Katana.tyIdxOf tyProp types t a ≤ Katana.tyIdxOf tyProp types t b)
      (t.toGraphTopology.outEdges n) := by
    refine List.Pairwise.imp_of_mem ?_ (hbytype n hn)
    intro a b ha hb hab
    unfold Katana.tyIdxOf Katana.typeToIndex
    exact Katana.indexOf_mono_of_sorted types hsorted
      (hpresent a (Katana.outEdges_lt_numEdges t.toGraphTopology hwf.1 hn ha))
      (hpresent b (Katana.outEdges_lt_numEdges t.toGraphTopology hwf.1 hn hb))
      hab
  have hbe := Katana.edgeBeg_le_edgeEnd t.toGraphTopology hwf.1 hn
  have hmemE : ∀ e, e ∈ t.toGraphTopology.outEdges n ↔
      t.edgeBeg n ≤ e ∧ e < t.edgeBeg n + (t.edgeEnd n - t.edgeBeg n) := by
    intro e
    unfold Katana.GraphTopology.outEdges
    exact List.mem_range'_1
  have hlenE : (t.toGraphTopology.outEdges n).length =
      t.edgeEnd n - t.edgeBeg n := by
    unfold Katana.GraphTopology.outEdges
    rw [List.length_range']
  have hwin : ∀ (v : Nat) (i : Nat), i < t.edgeEnd n - t.edgeBeg n →
      (Katana.tyIdxOf tyProp types t (t.edgeBeg n + i) ≤ v ↔
        i < (t.toGraphTopology.outEdges n).countP
          (fun e => Katana.tyIdxOf tyProp types t e ≤ v)) := by
    intro v i hi
    exact Katana.countP_window (Katana.tyIdxOf tyProp types t) v
      (t.edgeEnd n - t.edgeBeg n) (t.edgeBeg n) hmono i hi
  have key : ∀ ty2, ty2 < types.length → ∀ e,
      ((Katana.typeRange tyProp types t n ty2).1 ≤ e ∧
        e < (Katana.typeRange tyProp types t n ty2).2) ↔
      (e ∈ t.toGraphTopology.outEdges n ∧
        Katana.tyIdxOf tyProp types t e = ty2) := by
    intro ty2 hty2 e
    have hhi : (Katana.typeRange tyProp types t n ty2).2 =
        t.edgeBeg n + (t.toGraphTopology.outEdges n).countP
          (fun e => Katana.tyIdxOf tyProp types t e ≤ ty2) := by
      unfold Katana.typeRange Katana.outEdgesByType
      exact hval ty2 hty2
    have hcle : ∀ v, (t.toGraphTopology.outEdges n).countP
        (fun e => Katana.tyIdxOf tyProp types t e ≤ v) ≤
        t.edgeEnd n - t.edgeBeg n := by
      intro v
      rw [← hlenE]
      exact List.countP_le_length _
    constructor
    · rintro ⟨h1, h2⟩
      rw [hhi] at h2
      have hbeg_le : t.edgeBeg n ≤ e := by
        by_cases h0 : ty2 = 0
        · have : (Katana.typeRange tyProp types t n ty2).1 = t.edgeBeg n := by
            unfold Katana.typeRange Katana.outEdgesByType
            rw [if_pos h0]
          omega
        · have : (Katana.typeRange tyProp types t n ty2).1 =
              t.edgeBeg n + (t.toGraphTopology.outEdges n).countP
                (fun e => Katana.tyIdxOf tyProp types t e ≤ ty2 - 1) := by
            unfold Katana.typeRange Katana.outEdgesByType
            rw [if_neg h0]
            exact hval (ty2 - 1) (by omega)
          omega
      have hilt : e - t.edgeBeg n < t.edgeEnd n - t.edgeBeg n := by
        have := hcle ty2
        omega
      have h3 : Katana.tyIdxOf tyProp types t e ≤ ty2 := by
        have := (hwin ty2 (e - t.edgeBeg n) hilt).mpr (by omega)
        rwa [show t.edgeBeg n + (e - t.edgeBeg n) = e from by omega] at this
      have hmem2 : e ∈ t.toGraphTopology.outEdges n := by
        rw [hmemE]
        omega
      refine ⟨hmem2, ?_⟩
      by_cases h0 : ty2 = 0
      · omega
      · have hlo : (Katana.typeRange tyProp types t n ty2).1 =
            t.edgeBeg n + (t.toGraphTopology.outEdges n).countP
              (fun e => Katana.tyIdxOf tyProp types t e ≤ ty2 - 1) := by
          unfold Katana.typeRange Katana.outEdgesByType
          rw [if_neg h0]
          exact hval (ty2 - 1) (by omega)
        have h4 : ¬ (e - t.edgeBeg n < (t.toGraphTopology.outEdges n).countP
            (fun e => Katana.tyIdxOf tyProp types t e ≤ ty2 - 1)) := by
          omega
        have h5 : ¬ (Katana.tyIdxOf tyProp types t e ≤ ty2 - 1) := by
          intro hc
          apply h4
          have := (hwin (ty2 - 1) (e - t.edgeBeg n) hilt).mp (by
            rwa [show t.edgeBeg n + (e - t.edgeBeg n) = e from by omega])
          exact this
        omega
    · rintro ⟨hmem2, heq⟩
      have he_range := (hmemE e).mp hmem2
      have hilt : e - t.edgeBeg n < t.edgeEnd n - t.edgeBeg n := by omega
      have h2 : e < (Katana.typeRange tyProp types t n ty2).2 := by
        rw [hhi]
        have := (hwin ty2 (e - t.edgeBeg n) hilt).mp (by
          rw [show t.edgeBeg n + (e - t.edgeBeg n) = e from by omega]
          omega)
        omega
      refine ⟨?_, h2⟩
      by_cases h0 : ty2 = 0
      · have : (Katana.typeRange tyProp types t n ty2).1 = t.edgeBeg n := by
          unfold Katana.typeRange Katana.outEdgesByType
          rw [if_pos h0]
        omega
      · have hlo : (Katana.typeRange tyProp types t n ty2).1 =
            t.edgeBeg n + (t.toGraphTopology.outEdges n).countP
              (fun e => Katana.tyIdxOf tyProp types t e ≤ ty2 - 1) := by
          unfold Katana.typeRange Katana.outEdgesByType
          rw [if_neg h0]
          exact hval (ty2 - 1) (by omega)
        have h5 : ¬ (Katana.tyIdxOf tyProp types t e ≤ ty2 - 1) := by omega
        have h4 : ¬ (e - t.edgeBeg n < (t.toGraphTopology.outEdges n).countP
            (fun e => Katana.tyIdxOf tyProp types t e ≤ ty2 - 1)) := by
          intro hc
          apply h5
          have := (hwin (ty2 - 1) (e - t.edgeBeg n) hilt).mpr hc
          rwa [show t.edgeBeg n + (e - t.edgeBeg n) = e from by omega] at this
        omega
  refine ⟨key ty hty, ?_, ?_⟩
  · rintro ty2 hty2 hne e ⟨hin1, hin2⟩
    have ha := (key ty hty e).mp hin1
    have hb := (key ty2 hty2 e).mp hin2
    omega
  · intro e
    constructor
    · intro hmem2
      have hlt : Katana.tyIdxOf tyProp types t e < types.length := by
        unfold Katana.tyIdxOf Katana.typeToIndex
        exact List.indexOf_lt_length.mpr
          (hpresent e (Katana.outEdges_lt_numEdges t.toGraphTopology hwf.1 hn hmem2))
      exact ⟨Katana.tyIdxOf tyProp types t e, hlt,
        (key _ hlt e).mpr ⟨hmem2, rfl⟩⟩
    · rintro ⟨ty2, hty2, hr⟩
      exact ((key ty2 hty2 e).mp hr).1

/-- Witness for `C3_edge_type_adjacency`: the S4-style instance — types
`[10, 20]`, node 0 with edges typed `10, 20`, node 1 with one edge typed
`20`, node 2 empty. -/
theorem C3_edge_type_adjacency_witness :
    (Katana.sortedViewS3.WFS ∧
      List.Pairwise (· < ·) [10, 20] ∧
      (∀ e < Katana.sortedViewS3.numEdges,
        (fun p => if p = 0 then 10 else 20)
          (Katana.sortedViewS3.toGraphTopology.getEdgePropIdx e) ∈ [10, 20]) ∧
      (∀ n < Katana.sortedViewS3.numNodes,
        List.Pairwise
          (fun a b => (fun p => if p = 0 then 10 else 20)
              (Katana.sortedViewS3.toGraphTopology.getEdgePropIdx a) ≤
            (fun p => if p = 0 then 10 else 20)
              (Katana.sortedViewS3.toGraphTopology.getEdgePropIdx b))
          (Katana.sortedViewS3.toGraphTopology.outEdges n))) ∧
    (∀ e,
      ((Katana.typeRange (fun p => if p = 0 then 10 else 20) [10, 20]
          Katana.sortedViewS3 0 0).1 ≤ e ∧
        e < (Katana.typeRange (fun p => if p = 0 then 10 else 20) [10, 20]
          Katana.sortedViewS3 0 0).2) ↔
      (e ∈ Katana.sortedViewS3.toGraphTopology.outEdges 0 ∧
        Katana.tyIdxOf (fun p => if p = 0 then 10 else 20) [10, 20]
          Katana.sortedViewS3 e = 0)) := by
  refine ⟨⟨by decide, by decide, by decide, by decide⟩, ?_⟩
  exact ((C3_edge_type_adjacency (fun p => if p = 0 then 10 else 20) [10, 20]
    Katana.sortedViewS3 (by decide) (by decide) (by decide) (by decide)
    0 (by decide) 0 (by decide)).1)

namespace Katana

/-- `tsuba::KeyBase` (Cache.h:20-31): a node/edge scope tag plus a name;
equality is component-wise. -/
structure KeyBase where
  nodeScope : Bool
  keyStr : String
deriving DecidableEq

/-- `tsuba::Cache::ReplacementPolicy` (Cache.h:52). -/
inductive ReplacementPolicy where
  | kLRU
  | kSize
deriving DecidableEq

/-- Constructor-time configuration of `tsuba::Cache` (Cache.h:54-70):
policy, capacities, and the optional `value_to_bytes_` supplier (`none`
embeds a null `std::function`).  The eviction callback only observes state,
so it is not modelled. -/
structure CacheConfig (V : Type) where
  policy : ReplacementPolicy
  lruCapacity : Nat
  byteCapacity : Nat
  valueToBytes : Option (V → Nat)

/-- State of a `tsuba::Cache`: the `lru_list_` (front = most recently used),
each node carrying a unique id standing for the `std::list` node identity
(iterators in the map refer to nodes by id); `key_to_value_` as an
association list of key to (value, list-node id); `total_bytes_`; and the
fresh-node counter. -/
structure CacheState (V : Type) where
  lruList : List (Nat × KeyBase)
  keyMap : List (KeyBase × V × Nat)
  totalBytes : Nat
  fresh : Nat
deriving DecidableEq

def initialCache (V : Type) : CacheState V :=
  { lruList := [], keyMap := [], totalBytes := 0, fresh := 0 }

def lookupKey {V : Type} : List (KeyBase × V × Nat) → KeyBase → Option (V × Nat)
  | [], _ => none
  | (k, vn) :: rest, key => if k = key then some vn else lookupKey rest key

/-- `insert_or_assign`: replace in place, else append. -/
def assignKey {V : Type} :
    List (KeyBase × V × Nat) → KeyBase → V × Nat → List (KeyBase × V × Nat)
  | [], key, vn => [(key, vn)]
  | (k, w) :: rest, key, vn =>
    if k = key then (key, vn) :: rest else (k, w) :: assignKey rest key vn

def eraseKey {V : Type} :
    List (KeyBase × V × Nat) → KeyBase → List (KeyBase × V × Nat)
  | [], _ => []
  | (k, w) :: rest, key =>
    if k = key then rest else (k, w) :: eraseKey rest key

/-- 64-bit `size_t` arithmetic for `total_bytes_`. -/
def wrap64 (x : Nat) : Nat :=
  x % (2 ^ 64)

def subWrap64 (a b : Nat) : Nat :=
  (a + (2 ^ 64 - b % (2 ^ 64))) % (2 ^ 64)

/-- Bytes subtracted on eviction (Cache.h:129-133, 152-154): the
`value_to_bytes_` of the key's current map value when the supplier is
non-null and the key is still mapped, otherwise nothing. -/
def evictedBytes {V : Type} (cfg : CacheConfig V) (st : CacheState V)
    (key : KeyBase) : Nat :=
  match cfg.valueToBytes, lookupKey st.keyMap key with
  | some f, some (v, _) => f v
  | _, _ => 0

/-- One eviction of the list's tail node with key `key`: erase the key from
the map, drop the tail node, subtract its current bytes. -/
def evictStepState {V : Type} (cfg : CacheConfig V) (st : CacheState V)
    (key : KeyBase) : CacheState V :=
  { lruList := st.lruList.dropLast
    keyMap := eraseKey st.keyMap key
    totalBytes := subWrap64 st.totalBytes (evictedBytes cfg st key)
    fresh := st.fresh }

/-- LRU branch of `evict_if_necessary` (Cache.h:121-141):
`while (size() > lru_capacity_)` evict the tail. -/
def evictLRU {V : Type} (cfg : CacheConfig V) (st : CacheState V) :
    CacheState V :=
  if st.keyMap.length ≤ cfg.lruCapacity then st
  else
    match hmatch : st.lruList.getLast? with
    | none => st
    | some nk => evictLRU cfg (evictStepState cfg st nk.2)
termination_by st.lruList.length
decreasing_by
  simp only [evictStepState, List.length_dropLast]
  have hne : st.lruList ≠ [] := by
    intro hnil
    rw [hnil] at hmatch
    simp at hmatch
  have := List.length_pos.mpr hne
  omega

/-- Byte-budget branch of `evict_if_necessary` (Cache.h:142-162):
`while (bytes() > byte_capacity_ && size() > 1)` evict the tail ("allow a
single entry to exceed our byte capacity"). -/
def evictSize {V : Type} (cfg : CacheConfig V) (st : CacheState V) :
    CacheState V :=
  if st.totalBytes ≤ cfg.byteCapacity ∨ st.keyMap.length ≤ 1 then st
  else
    match hmatch : st.lruList.getLast? with
    | none => st
    | some nk => evictSize cfg (evictStepState cfg st nk.2)
termination_by st.lruList.length
decreasing_by
  simp only [evictStepState, List.length_dropLast]
  have hne : st.lruList ≠ [] := by
    intro hnil
    rw [hnil] at hmatch
    simp at hmatch
  have := List.length_pos.mpr hne
  omega

def evictIfNecessary {V : Type} (cfg : CacheConfig V) (st : CacheState V) :
    CacheState V :=
  match cfg.policy with
  | .kLRU => evictLRU cfg st
  | .kSize => evictSize cfg st

/-- `Cache::Insert` (Cache.h:84-94): push a fresh node to the list front,
`insert_or_assign` the map entry to point at it (a previous node of the same
key stays in the list as a stale duplicate), add the value's bytes when the
supplier is non-null, then evict as necessary. -/
def cacheInsert {V : Type} (cfg : CacheConfig V) (st : CacheState V)
    (key : KeyBase) (v : V) : CacheState V :=
  evictIfNecessary cfg
    { lruList := (st.fresh, key) :: st.lruList
      keyMap := assignKey st.keyMap key (v, st.fresh)
      totalBytes :=
        match cfg.valueToBytes with
        | some f => wrap64 (st.totalBytes + f v)
        | none => st.totalBytes
      fresh := st.fresh + 1 }

/-- Splice the node with id `nid` to the list front. -/
def moveToFront (l : List (Nat × KeyBase)) (nid : Nat) : List (Nat × KeyBase) :=
  match l.find? (fun p => p.1 = nid) with
  | none => l
  | some node => node :: l.filter (fun p => ¬ p.1 = nid)

/-- `Cache::Get` (Cache.h:96-116): absent key — `modify_if` runs nothing and
the result stays `nullopt`; present key — when the entry's node is not the
head, splice it to the front and store in the map the pre-splice head
iterator (exactly what the source stores), then return the value. -/
def cacheGet {V : Type} (st : CacheState V) (key : KeyBase) :
    Option V × CacheState V :=
  match lookupKey st.keyMap key with
  | none => (none, st)
  | some (v, nid) =>
    match st.lruList with
    | [] => (some v, st)
    | (hid, _) :: _ =>
      if nid = hid then (some v, st)
      else
        (some v,
          { lruList := moveToFront st.lruList nid
            keyMap := assignKey st.keyMap key (v, hid)
            totalBytes := st.totalBytes
            fresh := st.fresh })

def runInserts {V : Type} (cfg : CacheConfig V)
    (ops : List (KeyBase × V)) : CacheState V :=
  ops.foldl (fun st kv => cacheInsert cfg st kv.1 kv.2) (initialCache V)

/-- Structural soundness of a cache state: map keys are unique and every
mapped key has a node somewhere in the list (so eviction from the tail can
always make progress). -/
def CacheInv {V : Type} (st : CacheState V) : Prop :=
  (st.keyMap.map Prod.fst).Nodup ∧
  ∀ key, (lookupKey st.keyMap key).isSome → ∃ nid, (nid, key) ∈ st.lruList

end Katana

namespace Katana

theorem lookup_assignKey_self {V : Type} (m : List (KeyBase × V × Nat))
    (key : KeyBase) (vn : V × Nat) :
    lookupKey (assignKey m key vn) key = some vn := by
  induction m with
  | nil => simp [assignKey, lookupKey]
  | cons p rest ih =>
    obtain ⟨k, w⟩ := p
    unfold assignKey
    by_cases hk : k = key
    · rw [if_pos hk]
      simp [lookupKey]
    · rw [if_neg hk]
      unfold lookupKey
      rw [if_neg hk]
      exact ih

theorem lookup_assignKey_ne {V : Type} (m : List (KeyBase × V × Nat))
    (key j : KeyBase) (vn : V × Nat) (hne : j ≠ key) :
    lookupKey (assignKey m key vn) j = lookupKey m j := by
  have hkj : ¬ (key = j) := fun hc => hne hc.symm
  induction m with
  | nil =>
    simp only [assignKey, lookupKey]
    rw [if_neg hkj]
  | cons p rest ih =>
    obtain ⟨k, w⟩ := p
    simp only [assignKey]
    by_cases hk : k = key
    · rw [if_pos hk]
      simp only [lookupKey]
      rw [if_neg hkj, if_neg (by rw [hk]; exact hkj)]
    · rw [if_neg hk]
      simp only [lookupKey]
      by_cases hj : k = j
      · rw [if_pos hj, if_pos hj]
      · rw [if_neg hj, if_neg hj]
        exact ih

theorem lookup_isSome_iff_mem {V : Type} (m : List (KeyBase × V × Nat))
    (key : KeyBase) :
    (lookupKey m key).isSome ↔ key ∈ m.map Prod.fst := by
  induction m with
  | nil => simp [lookupKey]
  | cons p rest ih =>
    obtain ⟨k, w⟩ := p
    unfold lookupKey
    by_cases hk : k = key
    · rw [if_pos hk]
      simp [hk]
    · rw [if_neg hk]
      simp only [List.map_cons, List.mem_cons, ih]
      constructor
      · intro hh
        exact Or.inr hh
      · rintro (hh | hh)
        · exact absurd hh.symm hk
        · exact hh

theorem keys_assignKey {V : Type} (m : List (KeyBase × V × Nat))
    (key : KeyBase) (vn : V × Nat) :
    (assignKey m key vn).map Prod.fst =
      if key ∈ m.map Prod.fst then m.map Prod.fst
      else m.map Prod.fst ++ [key] := by
  induction m with
  | nil => simp [assignKey]
  | cons p rest ih =>
    obtain ⟨k, w⟩ := p
    unfold assignKey
    by_cases hk : k = key
    · rw [if_pos hk]
      simp [hk]
    · rw [if_neg hk]
      simp only [List.map_cons, ih, List.mem_cons]
      by_cases hmem : key ∈ rest.map Prod.fst
      · rw [if_pos hmem, if_pos (Or.inr hmem)]
      · rw [if_neg hmem, if_neg (by
          rintro (hc | hc)
          · exact hk hc.symm
          · exact hmem hc)]
        simp

theorem nodup_assignKey {V : Type} (m : List (KeyBase × V × Nat))
    (key : KeyBase) (vn : V × Nat) (h : (m.map Prod.fst).Nodup) :
    ((assignKey m key vn).map Prod.fst).Nodup := by
  rw [keys_assignKey]
  by_cases hmem : key ∈ m.map Prod.fst
  · rw [if_pos hmem]
    exact h
  · rw [if_neg hmem]
    rw [List.nodup_append]
    exact ⟨h, List.nodup_singleton key, by
      intro a ha hb
      rw [List.mem_singleton] at hb
      subst hb
      exact hmem ha⟩

theorem lookup_eraseKey_self {V : Type} (m : List (KeyBase × V × Nat))
    (key : KeyBase) (h : (m.map Prod.fst).Nodup) :
    lookupKey (eraseKey m key) key = none := by
  induction m with
  | nil => rfl
  | cons p rest ih =>
    obtain ⟨k, w⟩ := p
    simp only [List.map_cons, List.nodup_cons] at h
    unfold eraseKey
    by_cases hk : k = key
    · rw [if_pos hk]
      cases hl : lookupKey rest key with
      | none => rfl
      | some vn =>
        exfalso
        have := (lookup_isSome_iff_mem rest key).mp (by rw [hl]; rfl)
        rw [← hk] at this
        exact h.1 this
    · rw [if_neg hk]
      unfold lookupKey
      rw [if_neg hk]
      exact ih h.2

theorem lookup_eraseKey_ne {V : Type} (m : List (KeyBase × V × Nat))
    (key j : KeyBase) (hne : j ≠ key) :
    lookupKey (eraseKey m key) j = lookupKey m j := by
  induction m with
  | nil => rfl
  | cons p rest ih =>
    obtain ⟨k, w⟩ := p
    simp only [eraseKey]
    by_cases hk : k = key
    · rw [if_pos hk]
      simp only [lookupKey]
      rw [if_neg (by rw [hk]; exact fun hc => hne hc.symm)]
    · rw [if_neg hk]
      simp only [lookupKey]
      by_cases hj : k = j
      · rw [if_pos hj, if_pos hj]
      · rw [if_neg hj, if_neg hj]
        exact ih

theorem length_eraseKey_le {V : Type} (m : List (KeyBase × V × Nat))
    (key : KeyBase) :
    m.length - 1 ≤ (eraseKey m key).length ∧ (eraseKey m key).length ≤ m.length := by
  induction m with
  | nil => simp [eraseKey]
  | cons p rest ih =>
    obtain ⟨k, w⟩ := p
    unfold eraseKey
    by_cases hk : k = key
    · rw [if_pos hk]
      simp only [List.length_cons]
      omega
    · rw [if_neg hk]
      simp only [List.length_cons]
      omega

theorem length_eraseKey_lt {V : Type} (m : List (KeyBase × V × Nat))
    (key : KeyBase) (h : (lookupKey m key).isSome) :
    (eraseKey m key).length = m.length - 1 := by
  induction m with
  | nil => simp [lookupKey] at h
  | cons p rest ih =>
    obtain ⟨k, w⟩ := p
    unfold eraseKey
    unfold lookupKey at h
    by_cases hk : k = key
    · rw [if_pos hk]
      simp only [List.length_cons]
      omega
    · rw [if_neg hk] at h ⊢
      simp only [List.length_cons]
      have := length_eraseKey_le rest key
      rw [ih h]
      have : 1 ≤ rest.length := by
        cases rest with
        | nil => simp [lookupKey] at h
        | cons q r => simp
      omega

theorem keys_eraseKey_sub {V : Type} (m : List (KeyBase × V × Nat))
    (key : KeyBase) :
    ∀ j ∈ (eraseKey m key).map Prod.fst, j ∈ m.map Prod.fst := by
  induction m with
  | nil => simp [eraseKey]
  | cons p rest ih =>
    obtain ⟨k, w⟩ := p
    unfold eraseKey
    by_cases hk : k = key
    · rw [if_pos hk]
      intro j hj
      simp only [List.map_cons, List.mem_cons]
      exact Or.inr hj
    · rw [if_neg hk]
      intro j hj
      simp only [List.map_cons, List.mem_cons] at hj ⊢
      rcases hj with hj | hj
      · exact Or.inl hj
      · exact Or.inr (ih j hj)

theorem nodup_eraseKey {V : Type} (m : List (KeyBase × V × Nat))
    (key : KeyBase) (h : (m.map Prod.fst).Nodup) :
    ((eraseKey m key).map Prod.fst).Nodup := by
  induction m with
  | nil => simp [eraseKey]
  | cons p rest ih =>
    obtain ⟨k, w⟩ := p
    simp only [List.map_cons, List.nodup_cons] at h
    unfold eraseKey
    by_cases hk : k = key
    · rw [if_pos hk]
      exact h.2
    · rw [if_neg hk]
      simp only [List.map_cons, List.nodup_cons]
      exact ⟨fun hc => h.1 (keys_eraseKey_sub rest key k hc), ih h.2⟩

end Katana

namespace Katana

theorem evictStep_inv {V : Type} (cfg : CacheConfig V) (st : CacheState V)
    (hinv : CacheInv st) (nk : Nat × KeyBase)
    (hl : st.lruList.getLast? = some nk) :
    CacheInv (evictStepState cfg st nk.2) := by
  obtain ⟨hnodup, hmem⟩ := hinv
  refine ⟨nodup_eraseKey _ _ hnodup, ?_⟩
  intro j hj
  simp only [evictStepState] at hj ⊢
  have hjne : j ≠ nk.2 := by
    intro hc
    subst hc
    rw [lookup_eraseKey_self _ _ hnodup] at hj
    simp at hj
  rw [lookup_eraseKey_ne _ _ _ hjne] at hj
  obtain ⟨nid, hnid⟩ := hmem j hj
  refine ⟨nid, ?_⟩
  have hsplit : st.lruList.dropLast ++ [nk] = st.lruList :=
    List.dropLast_append_getLast? nk hl
  rw [← hsplit] at hnid
  rcases List.mem_append.mp hnid with hin | hin
  · exact hin
  · exfalso
    rw [List.mem_singleton] at hin
    exact hjne (congrArg Prod.snd hin)

theorem map_empty_of_inv_list_nil {V : Type} (st : CacheState V)
    (hinv : CacheInv st) (hlist : st.lruList = []) :
    st.keyMap.length = 0 := by
  cases hm : st.keyMap with
  | nil => rfl
  | cons p r =>
    exfalso
    obtain ⟨k, w⟩ := p
    have hsome : (lookupKey st.keyMap k).isSome := by
      rw [hm]
      simp [lookupKey]
    obtain ⟨nid, hnid⟩ := hinv.2 k hsome
    rw [hlist] at hnid
    simp at hnid

theorem list_ne_nil_of_map_ne {V : Type} (st : CacheState V)
    (hinv : CacheInv st) (hmap : 1 ≤ st.keyMap.length) :
    st.lruList ≠ [] := by
  intro hnil
  have := map_empty_of_inv_list_nil st hinv hnil
  omega

theorem evictLRU_post {V : Type} (cfg : CacheConfig V) :
    ∀ (fuel : Nat) (st : CacheState V), st.lruList.length ≤ fuel →
      CacheInv st →
      CacheInv (evictLRU cfg st) ∧
        (evictLRU cfg st).keyMap.length ≤ cfg.lruCapacity := by
  intro fuel
  induction fuel with
  | zero =>
    intro st hf hinv
    have hlist : st.lruList = [] := List.eq_nil_of_length_eq_zero (by omega)
    have hmap0 := map_empty_of_inv_list_nil st hinv hlist
    rw [evictLRU, if_pos (by omega)]
    exact ⟨hinv, by omega⟩
  | succ fuel ih =>
    intro st hf hinv
    by_cases hc : st.keyMap.length ≤ cfg.lruCapacity
    · rw [evictLRU, if_pos hc]
      exact ⟨hinv, hc⟩
    · have hlistne : st.lruList ≠ [] :=
        list_ne_nil_of_map_ne st hinv (by omega)
      have hl := List.getLast?_eq_getLast st.lruList hlistne
      rw [evictLRU, if_neg hc]
      split
      · rename_i hnone
        rw [hnone] at hl
        exact absurd hl (by simp)
      · rename_i nk hsome
        refine ih (evictStepState cfg st nk.2) ?_
          (evictStep_inv cfg st hinv nk hsome)
        simp only [evictStepState, List.length_dropLast]
        have := List.length_pos.mpr hlistne
        omega

theorem evictSize_post {V : Type} (cfg : CacheConfig V) :
    ∀ (fuel : Nat) (st : CacheState V), st.lruList.length ≤ fuel →
      CacheInv st → 1 ≤ st.keyMap.length →
      CacheInv (evictSize cfg st) ∧
        1 ≤ (evictSize cfg st).keyMap.length ∧
        ((evictSize cfg st).totalBytes ≤ cfg.byteCapacity ∨
          (evictSize cfg st).keyMap.length = 1) := by
  intro fuel
  induction fuel with
  | zero =>
    intro st hf hinv h1
    exfalso
    have hlist : st.lruList = [] := List.eq_nil_of_length_eq_zero (by omega)
    have := map_empty_of_inv_list_nil st hinv hlist
    omega
  | succ fuel ih =>
    intro st hf hinv h1
    by_cases hc : st.totalBytes ≤ cfg.byteCapacity ∨ st.keyMap.length ≤ 1
    · rw [evictSize, if_pos hc]
      refine ⟨hinv, h1, ?_⟩
      rcases hc with hc | hc
      · exact Or.inl hc
      · exact Or.inr (by omega)
    · have hsz : 2 ≤ st.keyMap.length := by omega
      have hlistne : st.lruList ≠ [] :=
        list_ne_nil_of_map_ne st hinv (by omega)
      have hl := List.getLast?_eq_getLast st.lruList hlistne
      rw [evictSize, if_neg hc]
      split
      · rename_i hnone
        rw [hnone] at hl
        exact absurd hl (by simp)
      · rename_i nk hsome
        refine ih (evictStepState cfg st nk.2) ?_
          (evictStep_inv cfg st hinv nk hsome) ?_
        · simp only [evictStepState, List.length_dropLast]
          have := List.length_pos.mpr hlistne
          omega
        · simp only [evictStepState]
          have := length_eraseKey_le st.keyMap nk.2
          omega

theorem cacheInsert_post {V : Type} (cfg : CacheConfig V) (st : CacheState V)
    (key : KeyBase) (v : V) (hinv : CacheInv st) :
    CacheInv (cacheInsert cfg st key v) ∧
    (cfg.policy = .kLRU →
      (cacheInsert cfg st key v).keyMap.length ≤ cfg.lruCapacity) ∧
    (cfg.policy = .kSize →
      (cacheInsert cfg st key v).totalBytes ≤ cfg.byteCapacity ∨
        (cacheInsert cfg st key v).keyMap.length = 1) := by
  set st1 : CacheState V :=
    { lruList := (st.fresh, key) :: st.lruList
      keyMap := assignKey st.keyMap key (v, st.fresh)
      totalBytes :=
        match cfg.valueToBytes with
        | some f => wrap64 (st.totalBytes + f v)
        | none => st.totalBytes
      fresh := st.fresh + 1 } with hst1
  have hinv1 : CacheInv st1 := by
    refine ⟨nodup_assignKey _ _ _ hinv.1, ?_⟩
    intro j hj
    by_cases hjk : j = key
    · subst hjk
      exact ⟨st.fresh, List.mem_cons_self _ _⟩
    · rw [show st1.keyMap = assignKey st.keyMap key (v, st.fresh) from rfl,
        lookup_assignKey_ne _ _ _ _ hjk] at hj
      obtain ⟨nid, hnid⟩ := hinv.2 j hj
      exact ⟨nid, List.mem_cons_of_mem _ hnid⟩
  have hsz1 : 1 ≤ st1.keyMap.length := by
    have : (lookupKey st1.keyMap key).isSome := by
      rw [show st1.keyMap = assignKey st.keyMap key (v, st.fresh) from rfl,
        lookup_assignKey_self]
      rfl
    cases hm : st1.keyMap with
    | nil => rw [hm] at this; simp [lookupKey] at this
    | cons p r => simp
  have hrun : cacheInsert cfg st key v = evictIfNecessary cfg st1 := rfl
  rw [hrun]
  unfold evictIfNecessary
  match hp : cfg.policy with
  | .kLRU =>
    have := evictLRU_post cfg st1.lruList.length st1 (le_refl _) hinv1
    exact ⟨this.1, fun _ => this.2, fun hcontra => absurd hcontra (by decide)⟩
  | .kSize =>
    have := evictSize_post cfg st1.lruList.length st1 (le_refl _) hinv1 hsz1
    exact ⟨this.1, fun hcontra => absurd hcontra (by decide), fun _ => this.2.2⟩

end Katana

namespace Katana

theorem runInserts_inv {V : Type} (cfg : CacheConfig V)
    (ops : List (KeyBase × V)) :
    CacheInv (runInserts cfg ops) := by
  suffices hh : ∀ (st : CacheState V), CacheInv st →
      CacheInv (ops.foldl (fun st kv => cacheInsert cfg st kv.1 kv.2) st) by
    exact hh (initialCache V) ⟨List.Pairwise.nil, by
      intro key hk
      simp [initialCache, lookupKey] at hk⟩
  induction ops with
  | nil => intro st h; exact h
  | cons kv ops ih =>
    intro st h
    exact ih _ (cacheInsert_post cfg st kv.1 kv.2 h).1

end Katana

/-- C2: property cache capacity invariant.  Starting from a fresh cache, after
any finite sequence of `Insert` calls (any keys, any values — every prefix of
a sequence is itself a sequence, so this covers "after each Insert returns"):
under the LRU policy `size() ≤ lru_capacity_`, and under the byte policy
`bytes() ≤ byte_capacity_` or `size() == 1`. -/
theorem C2_cache_capacity_invariant {V : Type} (cfg : Katana.CacheConfig V)
    (ops : List (Katana.KeyBase × V)) :
    (cfg.policy = .kLRU →
      (Katana.runInserts cfg ops).keyMap.length ≤ cfg.lruCapacity) ∧
    (cfg.policy = .kSize →
      (Katana.runInserts cfg ops).totalBytes ≤ cfg.byteCapacity ∨
        (Katana.runInserts cfg ops).keyMap.length = 1) := by
  induction ops using List.reverseRecOn with
  | nil =>
    constructor
    · intro _
      simp [Katana.runInserts, Katana.initialCache]
    · intro _
      exact Or.inl (by simp [Katana.runInserts, Katana.initialCache])
  | append_singleton l kv _ =>
    have hrun : Katana.runInserts cfg (l ++ [kv]) =
        Katana.cacheInsert cfg (Katana.runInserts cfg l) kv.1 kv.2 := by
      unfold Katana.runInserts
      rw [List.foldl_append]
      rfl
    rw [hrun]
    have hpost := Katana.cacheInsert_post cfg (Katana.runInserts cfg l)
      kv.1 kv.2 (Katana.runInserts_inv cfg l)
    exact ⟨hpost.2.1, hpost.2.2⟩

/-- C10: `Get` of an absent key is a pure miss.  When the key is not in the
map, `modify_if` runs nothing: the call returns `nullopt` and the cache state
— list contents and order, map entries, byte count — is exactly unchanged. -/
theorem C10_get_absent_frame {V : Type} (st : Katana.CacheState V)
    (key : Katana.KeyBase) (h : Katana.lookupKey st.keyMap key = none) :
    Katana.cacheGet st key = (none, st) := by
  unfold Katana.cacheGet
  rw [h]

/-- Concrete cache state for the C10 witness: two entries, and the queried
key is absent. -/
def Katana.c10State : Katana.CacheState Nat :=
  { lruList := [(1, { nodeScope := true, keyStr := "b" }),
      (0, { nodeScope := false, keyStr := "a" })]
    keyMap := [({ nodeScope := false, keyStr := "a" }, 7, 0),
      ({ nodeScope := true, keyStr := "b" }, 8, 1)]
    totalBytes := 15
    fresh := 2 }

/-- Witness for `C10_get_absent_frame` at `c10State` with the absent key
`(kEdge, "c")`. -/
theorem C10_get_absent_frame_witness :
    Katana.lookupKey Katana.c10State.keyMap
      { nodeScope := true, keyStr := "c" } = none ∧
    Katana.cacheGet Katana.c10State { nodeScope := true, keyStr := "c" } =
      (none, Katana.c10State) := by
  refine ⟨by decide, ?_⟩
  exact C10_get_absent_frame Katana.c10State _ (by decide)
